import Mathlib

/-!
# Verification of the `pplaces` repository-cache tool (src/main.rs)

A shallow embedding of the logical core of `src/main.rs`:

* Rust `String`s are modelled as `List Char` (`Str`); the Rust string
  operations used by the program (`split`, `split_once`, `ends_with`,
  `starts_with`, `take(1).collect`, `join`) are modelled by executable
  functions below, each a direct transcription of the documented
  semantics of the corresponding Rust method.
* A Rust `panic!` / `.unwrap()` on `None` is modelled by returning `none`
  (respectively propagating `none`) in `Option`.
* External effects (the filesystem tree walked by `scan`, the metadata
  produced by the out-of-process `git` invocations, the wall clock and
  local-timezone conversion used by `print_recent`, and the bytes of the
  on-disk cache file) are passed in as explicit parameters.
-/

/-- Rust strings, modelled as lists of characters. -/
abbrev Str := List Char

/-- Helper turning a Lean string literal into the `Str` model. -/
def str (s : String) : Str := s.data

/-- Rust `str::split(sep)` for a one-character separator: the list of
chunks between occurrences of `c` (always non-empty; `split` of `""` is
`[""]`). -/
def splitOnChar (c : Char) : Str → List Str
  | [] => [[]]
  | x :: xs =>
    if x = c then [] :: splitOnChar c xs
    else
      match splitOnChar c xs with
      | [] => [[x]]
      | y :: ys => (x :: y) :: ys

/-- Rust `Vec::join(sep)` / `itertools` join for a one-character
separator. -/
def joinWithChar (c : Char) : List Str → Str
  | [] => []
  | [x] => x
  | x :: y :: ys => x ++ c :: joinWithChar c (y :: ys)

/-- Rust `str::split_once(c)` for a one-character pattern: the parts
strictly before and strictly after the first occurrence of `c`. -/
def splitOnceChar (c : Char) : Str → Option (Str × Str)
  | [] => none
  | x :: xs =>
    if x = c then some ([], xs)
    else (splitOnceChar c xs).map (fun p => (x :: p.1, p.2))

/-- Rust `str::split_once(pat)` for a string pattern: the parts strictly
before and strictly after the first occurrence of `pat`. -/
def splitOnceSub (pat : Str) : Str → Option (Str × Str)
  | [] => if pat.isPrefixOf ([] : Str) then some ([], []) else none
  | x :: xs =>
    if pat.isPrefixOf (x :: xs) then some ([], (x :: xs).drop pat.length)
    else (splitOnceSub pat xs).map (fun p => (x :: p.1, p.2))

/-- `src/main.rs` lines 254-275, `get_url_ending`.

```rust
fn get_url_ending(url: &str) -> String {
    let url = url.split(" ").take(1).collect::<String>();
    let url = if url.ends_with(".git") {
        url.split_once(".git").unwrap().0
    } else { &url };
    if url.starts_with("git@") {
        let url = url.split_once(":").unwrap().1;
        url.into()
    } else if url.starts_with("http") {
        let url = url.split("/").skip(3).collect::<Vec<_>>();
        let url = url.join("/");
        url
    } else { panic!("{} is not a URL", url); }
}
```

`none` models a panic (either of the two `.unwrap()`s failing, or the
final `panic!`). -/
def get_url_ending (url : Str) : Option Str :=
  let u1 := url.takeWhile (fun ch => ch ≠ ' ')
  let u2opt :=
    if (str ".git").isSuffixOf u1 then
      (splitOnceSub (str ".git") u1).map (fun p => p.1)
    else some u1
  match u2opt with
  | none => none
  | some u2 =>
    if (str "git@").isPrefixOf u2 then
      (splitOnceChar ':' u2).map (fun p => p.2)
    else if (str "http").isPrefixOf u2 then
      some (joinWithChar '/' ((splitOnChar '/' u2).drop 3))
    else
      none


/-- The optional `" (fetch)"` / `" (push)"` annotation a remote URL may
carry in `git remote -v` output (vocabulary for stating the claims about
`get_url_ending`). -/
def annStr : Option Bool → Str
  | none => []
  | some true => str " (fetch)"
  | some false => str " (push)"

/-! ## Data model (src/main.rs lines 19, 49-55) -/

/-- `chrono::NaiveDateTime`, as used by the program: a calendar date
(`NaiveDate::from_ymd`) combined with a wall-clock time (`and_hms`).
The chronological `Ord` of `chrono` coincides with lexicographic
comparison of the six components for every value the Rust type can
hold. -/
structure NaiveDateTime where
  y : Int
  mo : Nat
  d : Nat
  h : Nat
  mi : Nat
  s : Nat
deriving DecidableEq

/-- The six components of a timestamp, in comparison order. -/
def ndtKey (t : NaiveDateTime) : List Int :=
  [t.y, t.mo, t.d, t.h, t.mi, t.s]

/-- Lexicographic `≤` on integer lists: the comparison order of
`chrono::NaiveDateTime`. -/
def lexLe : List Int → List Int → Bool
  | [], _ => true
  | _ :: _, [] => false
  | a :: as, b :: bs =>
    if a < b then true else if b < a then false else lexLe as bs

/-- `Ord` of `chrono::NaiveDateTime` (chronological). -/
def ndtLe (a b : NaiveDateTime) : Bool := lexLe (ndtKey a) (ndtKey b)

/-- `Ord` of `Option<NaiveDateTime>`: `None` is least (Rust derives
`None < Some _`). This is the sort key used at line 191. -/
def optLe (a b : Option NaiveDateTime) : Bool :=
  match a, b with
  | none, _ => true
  | some _, none => false
  | some x, some y => ndtLe x y

/-- `src/main.rs` lines 49-55, `struct ProjectMetadata`. -/
structure ProjectMetadata where
  path : Str
  upstream : List Str
  latest_commit : Option NaiveDateTime
deriving DecidableEq

/-- `src/main.rs` line 19, `type Cache = Vec<ProjectMetadata>`. -/
abbrev Cache := List ProjectMetadata

/-! ## Cache merge (src/main.rs lines 103-115) -/

/-- Rust `Vec::swap_remove(i)`: remove the element at `i` by moving the
last element into its place (the identity when the vector is empty; in
the program `i` is always in bounds). -/
def swapRemove (l : List α) (i : Nat) : List α :=
  match l.getLast? with
  | none => l
  | some last => (l.set i last).dropLast

/-- Rust `iter().enumerate().find(p)`: the first element satisfying `p`
together with its index. -/
def findWithIdx (p : α → Bool) : List α → Option (Nat × α)
  | [] => none
  | x :: xs =>
    if p x then some (0, x)
    else (findWithIdx p xs).map (fun q => (q.1 + 1, q.2))

/-- `src/main.rs` lines 103-115, `update_repo_data`, with the freshly
fetched record (`fetch_metadata`'s result, produced by the external
`git` tool) passed in as `data`:

```rust
let idx = cache.iter().enumerate().find(|(_, e)| e.path == data.path);
if let Some((i, _)) = idx { cache.swap_remove(i); }
cache.push(data);
``` -/
def update_repo_data (data : ProjectMetadata) (cache : Cache) : Cache :=
  match findWithIdx (fun e => e.path == data.path) cache with
  | some q => swapRemove cache q.1 ++ [data]
  | none => cache ++ [data]

/-- Number of cache records with a given path (used to state the
"at most one record per path" invariant). -/
def countPath (cache : Cache) (q : Str) : Nat :=
  cache.countP (fun e => e.path == q)

/-! ## Sorting (src/main.rs line 191: `data.sort_by_key(|d| d.latest_commit)`) -/

/-- Comparison used by `sort_by_key(|d| d.latest_commit)`. -/
def pmLe (a b : ProjectMetadata) : Bool := optLe a.latest_commit b.latest_commit

/-- Stable insertion into a list sorted ascending by `pmLe`. -/
def insertSorted (x : ProjectMetadata) : Cache → Cache
  | [] => [x]
  | y :: ys => if pmLe x y then x :: y :: ys else y :: insertSorted x ys

/-- Model of `Vec::sort_by_key(|d| d.latest_commit)` (a stable sort
ascending by the key): stable insertion sort. -/
def sortCache : Cache → Cache
  | [] => []
  | x :: xs => insertSorted x (sortCache xs)

/-! ## On-disk cache format (src/main.rs lines 206-224)

`save_cache_to_disk` writes `serde_json::to_string(cache)` and
`get_cache_from_disk` reads it back with `serde_json::from_str`.
Serialization is modelled at the JSON-value level (the byte-level JSON
printing/parsing that `serde_json` performs around these values is the
external library's contract). The derived `serde` code maps the struct
to an object with the declared field names in declaration order;
`chrono`'s `serde` implementation maps a `NaiveDateTime` to its ISO-8601
string `%Y-%m-%dT%H:%M:%S` (no subsecond part is ever produced by this
program, which builds timestamps with `and_hms`). -/

/-- JSON values. -/
inductive Json where
  | null : Json
  | jstr (s : Str) : Json
  | jnum (n : Int) : Json
  | jarr (xs : List Json) : Json
  | jobj (fields : List (Str × Json)) : Json

/-- The decimal digit character for `d < 10`. -/
def digitCh (d : Nat) : Char := Char.ofNat (48 + d)

/-- Big-endian decimal digits of `n` (empty for zero), with enough
fuel. -/
def natDecAux : Nat → Nat → Str
  | 0, _ => []
  | fuel + 1, n => if n = 0 then [] else natDecAux fuel (n / 10) ++ [digitCh (n % 10)]

/-- Decimal representation of a natural number (no leading zeros,
`"0"` for zero). -/
def natDec (n : Nat) : Str :=
  if n = 0 then ['0'] else natDecAux (n + 1) n

/-- Zero-padded two-digit field (`%m`, `%d`, `%H`, `%M`, `%S`). -/
def pad2 (n : Nat) : Str := if n < 10 then '0' :: natDec n else natDec n

/-- Zero-padded four-digit field (`%Y`). -/
def pad4 (n : Nat) : Str :=
  if n < 10 then '0' :: '0' :: '0' :: natDec n
  else if n < 100 then '0' :: '0' :: natDec n
  else if n < 1000 then '0' :: natDec n
  else natDec n

/-- `%Y` with a sign for negative years. -/
def fmtYear (y : Int) : Str :=
  if y < 0 then '-' :: pad4 y.natAbs else pad4 y.toNat

/-- `chrono` serialization format `%Y-%m-%dT%H:%M:%S`. -/
def fmtDT (t : NaiveDateTime) : Str :=
  fmtYear t.y ++ '-' :: pad2 t.mo ++ '-' :: pad2 t.d ++
    'T' :: pad2 t.h ++ ':' :: pad2 t.mi ++ ':' :: pad2 t.s

/-- Is `c` a decimal digit? -/
def isDigitCh (c : Char) : Bool :=
  decide (48 ≤ c.toNat) && decide (c.toNat ≤ 57)

/-- Numeric value of a digit character. -/
def digitVal (c : Char) : Nat := c.toNat - 48

/-- Value of a big-endian digit string. -/
def digitsVal (ds : Str) : Nat :=
  ds.foldl (fun a c => a * 10 + digitVal c) 0

/-- Parse a non-empty run of decimal digits, returning its value and the
rest of the input. -/
def parseDigits (s1 : Str) : Option (Nat × Str) :=
  let ds := s1.takeWhile isDigitCh
  if ds = [] then none
  else some (digitsVal ds, s1.dropWhile isDigitCh)

/-- Require character `c` next. -/
def expectCh (c : Char) : Str → Option Str
  | [] => none
  | x :: xs => if x = c then some xs else none

/-- Parse a possibly negative year. -/
def parseYear : Str → Option (Int × Str)
  | [] => none
  | c :: rest =>
    if c = '-' then (parseDigits rest).map (fun p => (-(p.1 : Int), p.2))
    else (parseDigits (c :: rest)).map (fun p => ((p.1 : Int), p.2))

/-- Parse the `%Y-%m-%dT%H:%M:%S` format. -/
def parseDT (s0 : Str) : Option NaiveDateTime := do
  let (y, s1) ← parseYear s0
  let s2 ← expectCh '-' s1
  let (mo, s3) ← parseDigits s2
  let s4 ← expectCh '-' s3
  let (d, s5) ← parseDigits s4
  let s6 ← expectCh 'T' s5
  let (h, s7) ← parseDigits s6
  let s8 ← expectCh ':' s7
  let (mi, s9) ← parseDigits s8
  let s10 ← expectCh ':' s9
  let (sec, s11) ← parseDigits s10
  if s11 = [] then some ⟨y, mo, d, h, mi, sec⟩ else none

/-- Derived `Serialize` for `ProjectMetadata`: an object with the three
declared fields in declaration order. -/
def serializeMeta (e : ProjectMetadata) : Json :=
  Json.jobj
    [(str "path", Json.jstr e.path),
     (str "upstream", Json.jarr (e.upstream.map (fun u => Json.jstr u))),
     (str "latest_commit",
       match e.latest_commit with
       | none => Json.null
       | some t => Json.jstr (fmtDT t))]

/-- Derived `Serialize` for `Cache = Vec<ProjectMetadata>`: a JSON
array. -/
def serializeCache (c : Cache) : Json := Json.jarr (c.map serializeMeta)

/-- A JSON string node. -/
def jsonToStr : Json → Option Str
  | Json.jstr s1 => some s1
  | _ => none

/-- Derived `Deserialize` for `ProjectMetadata` (shape as produced by
`serializeMeta`). -/
def deserializeMeta : Json → Option ProjectMetadata
  | Json.jobj [(k1, Json.jstr p), (k2, Json.jarr us), (k3, v3)] =>
    if k1 = str "path" ∧ k2 = str "upstream" ∧ k3 = str "latest_commit" then
      match us.mapM jsonToStr with
      | none => none
      | some ups =>
        match v3 with
        | Json.null => some ⟨p, ups, none⟩
        | Json.jstr s1 => (parseDT s1).map (fun t => ⟨p, ups, some t⟩)
        | _ => none
    else none
  | _ => none

/-- Derived `Deserialize` for `Cache`. -/
def deserializeCache : Json → Option Cache
  | Json.jarr xs => xs.mapM deserializeMeta
  | _ => none

/-! ## Cache load and build (src/main.rs lines 184-224) -/

/-- Failure modes of `get_cache_from_disk`: the `fs::read_to_string`
error (context "Cache file not found") or a `serde_json` parse error. -/
inductive LoadErr where
  | notFound : LoadErr
  | parseErr : LoadErr
deriving DecidableEq

/-- `src/main.rs` lines 218-224, `get_cache_from_disk`. The on-disk
state is passed in: `none` when the file is missing, `some j` when it
holds (the JSON value of) `j`. -/
def get_cache_from_disk (disk : Option Json) : Except LoadErr Cache :=
  match disk with
  | none => Except.error LoadErr.notFound
  | some j =>
    match deserializeCache j with
    | none => Except.error LoadErr.parseErr
    | some c => Except.ok c

/-- `src/main.rs` lines 184-195, `build_cache`. The records fetched for
the repositories found during the walk (in traversal order) are passed
in as `scanned`; `scan` folds each of them into the cache with
`update_repo_data`:

```rust
let mut data = match get_cache_from_disk() { Ok(cache) => cache, Err(_) => Vec::new() };
scan(path, &mut data);
data.sort_by_key(|d| d.latest_commit);
data.reverse();
``` -/
def build_cache (disk : Option Json) (scanned : List ProjectMetadata) : Cache :=
  let data :=
    match get_cache_from_disk disk with
    | Except.ok cache => cache
    | Except.error _ => []
  let data := scanned.foldl (fun acc d => update_repo_data d acc) data
  (sortCache data).reverse

/-! ## Recent-entries printer (src/main.rs lines 232-252) -/

/-- `src/main.rs` lines 232-252, `print_recent`: the list of paths
printed, in order. The wall clock and the local-timezone conversion are
passed in as `elapsedOf`, giving for a timestamp the `Duration`
`Local::now() - Local.from_local_datetime(..)` (in seconds); `since`
is the optional `Duration` filter (in seconds):

```rust
for entry in data.iter().filter(|e| {
    if e.latest_commit.is_some() {
        if let Some(date_time) = e.latest_commit {
            let elapsed = Local::now() - date_time;
            since.is_none() || (elapsed <= since.unwrap() && e.path.starts_with(loc_str))
        } else { false }
    } else { false }
}) { println!("{}", entry.path); }
``` -/
def recentPred (since : Option Int) (location : Str)
    (elapsedOf : NaiveDateTime → Int) (e : ProjectMetadata) : Bool :=
  match e.latest_commit with
  | none => false
  | some dt =>
    match since with
    | none => true
    | some dur => decide (elapsedOf dt ≤ dur) && location.isPrefixOf e.path

def print_recent (data : Cache) (since : Option Int) (location : Str)
    (elapsedOf : NaiveDateTime → Int) : List Str :=
  (data.filter (recentPred since location elapsedOf)).map (fun e => e.path)

/-! ## Clone guard (src/main.rs lines 74-101) -/

/-- What the `clone` command does after consulting the cache. -/
inductive CloneOutcome where
  /-- `println!("{} already exists in\n{}", url, entry.path)`; the
  external clone tool is not invoked. -/
  | reportPath (url : Str) (path : Str) : CloneOutcome
  /-- `git clone <args...>` is invoked with the original argument
  list. -/
  | runClone (args : List Str) : CloneOutcome
deriving DecidableEq

/-- `e.upstream.iter().any(|url| get_url_ending(url) == key)`, with a
panic inside `get_url_ending` propagating (`none`). -/
def anyCanonEq (key : Str) : List Str → Option Bool
  | [] => some false
  | u :: us =>
    match get_url_ending u with
    | none => none
    | some k => if k = key then some true else anyCanonEq key us

/-- `data.iter().find(|e| e.upstream.iter().any(..))`, with panics
propagating. -/
def findCanonMatch (key : Str) : Cache → Option (Option ProjectMetadata)
  | [] => some none
  | e :: es =>
    match anyCanonEq key e.upstream with
    | none => none
    | some true => some (some e)
    | some false => findCanonMatch key es

/-- `src/main.rs` lines 74-101, `clone`. `none` models a panic (no
URL-like argument, or `get_url_ending` panicking). -/
def clone (args : List Str) (data : Cache) : Option CloneOutcome :=
  match args.find? (fun s1 =>
      (str "http").isPrefixOf s1 || (str "git@").isPrefixOf s1) with
  | none => none
  | some url =>
    match get_url_ending url with
    | none => none
    | some key =>
      match findCanonMatch key data with
      | none => none
      | some (some entry) => some (CloneOutcome.reportPath url entry.path)
      | some none => some (CloneOutcome.runClone args)

/-! ## Command dispatch (src/main.rs lines 351-395) -/

/-- `src/main.rs` lines 355-360: the value computed from the
`--days-to-show` option. Line 359, which would turn `days` into a
`Duration`, is commented out in the source; line 360 hard-codes
`days_to_show` to `None`, so the computed `days` value is discarded. -/
def effectiveSince (daysOpt : Option Nat) : Option Int :=
  let days : Nat := match daysOpt with | some n => n | none => 365 * 1000
  let _ := days
  none

/-- Seconds in `Duration::days(n)` — what line 359 would have passed had
it not been commented out. -/
def daysToSecs (n : Nat) : Int := (n : Int) * 86400

/-- Output of the `Show` command. -/
inductive ShowOut where
  /-- `println!("{data:#?}")` (the `--full` branch). -/
  | fullDebug (data : Cache) : ShowOut
  /-- `print_recent(&data, days_to_show, Path::new("/"))`. -/
  | recent (paths : List Str) : ShowOut
deriving DecidableEq

/-- `src/main.rs` lines 378-385, the `Show` command: load the cache
(propagating its error with `?`), then either debug-print everything or
print the recent entries. -/
def mainShow (disk : Option Json) (daysOpt : Option Nat) (full : Bool)
    (elapsedOf : NaiveDateTime → Int) : Except LoadErr ShowOut :=
  match get_cache_from_disk disk with
  | Except.error e => Except.error e
  | Except.ok data =>
    Except.ok
      (if full then ShowOut.fullDebug data
       else ShowOut.recent (print_recent data (effectiveSince daysOpt) (str "/") elapsedOf))

/-- `src/main.rs` lines 374-377, the `Clone` command: load the cache
(propagating its error with `?`), then run the clone guard. -/
def mainClone (disk : Option Json) (args : List Str) :
    Except LoadErr (Option CloneOutcome) :=
  match get_cache_from_disk disk with
  | Except.error e => Except.error e
  | Except.ok data => Except.ok (clone args data)

/-- `src/main.rs` lines 364-373, the `Scan` command: build the cache,
save it, print the recent entries under the scanned path. Returns the
cache written to disk and the printed paths. -/
def mainScan (disk : Option Json) (scanned : List ProjectMetadata)
    (daysOpt : Option Nat) (scanPath : Str)
    (elapsedOf : NaiveDateTime → Int) : Cache × List Str :=
  let data := build_cache disk scanned
  (data, print_recent data (effectiveSince daysOpt) scanPath elapsedOf)

/-! ## Directory walk (src/main.rs lines 61-72) -/

/-- A filesystem tree: what `fs::read_dir` reports. Directory entries
carry a name and, for directories, their own entries. -/
inductive FsEntry where
  | file (nm : Str) : FsEntry
  | dir (nm : Str) (entries : List FsEntry) : FsEntry

/-- Observable actions of `scan`: `record p` is the call
`update_repo_data(&p, cache)` (the enclosing directory `p` is recorded
as a repository), `enter p` is the recursive call `scan(&p, cache)`. -/
inductive ScanEvent where
  | record (p : List Str) : ScanEvent
  | enter (p : List Str) : ScanEvent
deriving DecidableEq

/-! `src/main.rs` lines 61-72, `scan`, as its trace of actions. Paths
are component lists; `e.path().is_dir()` selects directory entries and
`e.path().ends_with(".git")` tests whether the entry's final component
is `.git`:

```rust
for e in fs::read_dir(path).unwrap() {
    let e = e.unwrap();
    if e.path().is_dir() {
        if e.path().ends_with(".git") { update_repo_data(&path, cache); }
        else { scan(&e.path(), cache); }
    }
}
``` -/
mutual

/-- The loop body of `scan` for one `read_dir` entry. -/
def entryTrace (path : List Str) : FsEntry → List ScanEvent
  | FsEntry.file _ => []
  | FsEntry.dir n sub =>
    if n = str ".git" then [ScanEvent.record path]
    else ScanEvent.enter (path ++ [n]) :: scanTrace (path ++ [n]) sub

/-- The whole `read_dir` loop of `scan` over the entries of the
directory at `path`. -/
def scanTrace (path : List Str) : List FsEntry → List ScanEvent
  | [] => []
  | e :: es => entryTrace path e ++ scanTrace path es

end

/-! ## String lemmas -/

theorem takeWhile_eq_self_of (p : Char → Bool) (l : Str) (h : ∀ c ∈ l, p c = true) :
    l.takeWhile p = l := by
  induction l with
  | nil => rfl
  | cons x xs ih =>
    have hx := h x (List.mem_cons_self x xs)
    simp [List.takeWhile_cons, hx,
      ih (fun c hc => h c (List.mem_cons_of_mem x hc))]

theorem takeWhile_append_stop (p : Char → Bool) (l r : Str) (x : Char)
    (h : ∀ c ∈ l, p c = true) (hx : p x = false) :
    (l ++ x :: r).takeWhile p = l := by
  induction l with
  | nil => simp [List.takeWhile_cons, hx]
  | cons a as ih =>
    have ha := h a (List.mem_cons_self a as)
    simp [List.takeWhile_cons, ha,
      ih (fun c hc => h c (List.mem_cons_of_mem a hc))]

/-- Stripping the optional `" (fetch)"`/`" (push)"` annotation: the
first `split(" ")` chunk of a space-free string followed by a tail that
is empty or starts with a space. -/
theorem takeWhile_no_space (l tail : Str) (hl : ∀ c ∈ l, c ≠ ' ')
    (ht : tail = [] ∨ ∃ r, tail = ' ' :: r) :
    (l ++ tail).takeWhile (fun ch => ch ≠ ' ') = l := by
  rcases ht with h | ⟨r, h⟩ <;> subst h
  · rw [List.append_nil]
    exact takeWhile_eq_self_of _ _ (fun c hc => by simp [hl c hc])
  · exact takeWhile_append_stop _ _ _ ' ' (fun c hc => by simp [hl c hc]) (by simp)

theorem no_space_append {l r : Str} (hl : ∀ c ∈ l, c ≠ ' ') (hr : ∀ c ∈ r, c ≠ ' ') :
    ∀ c ∈ l ++ r, c ≠ ' ' := by
  intro c hc
  rcases List.mem_append.mp hc with h | h
  · exact hl c h
  · exact hr c h

theorem splitOnceChar_of_not_mem (c : Char) (l r : Str) (h : c ∉ l) :
    splitOnceChar c (l ++ c :: r) = some (l, r) := by
  induction l with
  | nil => simp [splitOnceChar]
  | cons x xs ih =>
    have hx : ¬ x = c := fun e => h (e ▸ List.mem_cons_self x xs)
    simp [splitOnceChar, hx, ih (fun hm => h (List.mem_cons_of_mem x hm))]

theorem splitOnceChar_snd_length (c : Char) :
    ∀ (s1 a b : Str), splitOnceChar c s1 = some (a, b) → b.length < s1.length := by
  intro s1
  induction s1 with
  | nil => intro a b h; simp [splitOnceChar] at h
  | cons x xs ih =>
    intro a b h
    by_cases hx : x = c
    · rw [splitOnceChar, if_pos hx] at h
      have h2 := Option.some.inj h
      have hb : b = xs := (congrArg Prod.snd h2).symm
      rw [hb]
      simp
    · rw [splitOnceChar, if_neg hx] at h
      cases hs : splitOnceChar c xs with
      | none => rw [hs] at h; simp at h
      | some p =>
        obtain ⟨p1, p2⟩ := p
        rw [hs] at h
        simp only [Option.map_some'] at h
        have h2 := Option.some.inj h
        have hb : b = p2 := (congrArg Prod.snd h2).symm
        have := ih p1 p2 hs
        rw [hb]
        simp only [List.length_cons]
        omega

theorem splitOnceSub_fst_length (pat : Str) :
    ∀ (s1 a b : Str), splitOnceSub pat s1 = some (a, b) → a.length ≤ s1.length := by
  intro s1
  induction s1 with
  | nil =>
    intro a b h
    simp only [splitOnceSub] at h
    by_cases hp : pat.isPrefixOf ([] : Str)
    · rw [if_pos hp] at h
      have h2 := Option.some.inj h
      have ha : a = [] := (congrArg Prod.fst h2).symm
      simp [ha]
    · rw [if_neg hp] at h
      exact absurd h (by simp)
  | cons x xs ih =>
    intro a b h
    rw [splitOnceSub] at h
    by_cases hp : pat.isPrefixOf (x :: xs)
    · rw [if_pos hp] at h
      have h2 := Option.some.inj h
      have ha : a = [] := (congrArg Prod.fst h2).symm
      simp [ha]
    · rw [if_neg hp] at h
      cases hs : splitOnceSub pat xs with
      | none => rw [hs] at h; simp at h
      | some p =>
        obtain ⟨p1, p2⟩ := p
        rw [hs] at h
        simp only [Option.map_some'] at h
        have h2 := Option.some.inj h
        have ha : a = x :: p1 := (congrArg Prod.fst h2).symm
        have := ih p1 p2 hs
        rw [ha]
        simp only [List.length_cons]
        omega

theorem dotgit_eq : str ".git" = ['.', 'g', 'i', 't'] := rfl

/-- If `.git` does not occur inside `base`, then the first occurrence of
`.git` in `base ++ ".git"` is the appended suffix. -/
theorem splitOnceSub_dotgit : ∀ (base : Str), ¬ (str ".git") <:+: base →
    splitOnceSub (str ".git") (base ++ str ".git") = some (base, []) := by
  intro base
  induction base with
  | nil => intro _; decide
  | cons x bs ih =>
    intro h
    rw [List.cons_append]
    rw [splitOnceSub]
    by_cases hp : (str ".git").isPrefixOf (x :: (bs ++ str ".git"))
    · exfalso
      rw [List.isPrefixOf_iff_prefix] at hp
      obtain ⟨t, ht⟩ := hp
      have ht1 : ('.' : Char) :: 'g' :: 'i' :: 't' :: t = x :: (bs ++ str ".git") := ht
      injection ht1 with e1 ht2
      match bs, ht2 with
      | [], ht2 =>
        injection ht2 with e2 _
        exact absurd e2 (by decide)
      | [b1], ht2 =>
        injection ht2 with e2 ht3
        injection ht3 with e3 _
        exact absurd e3 (by decide)
      | [b1, b2], ht2 =>
        injection ht2 with e2 ht3
        injection ht3 with e3 ht4
        injection ht4 with e4 _
        exact absurd e4 (by decide)
      | b1 :: b2 :: b3 :: bs3, ht2 =>
        injection ht2 with e2 ht3
        injection ht3 with e3 ht4
        injection ht4 with e4 _
        -- x :: bs starts with ".git": contradiction with `h`
        apply h
        refine List.IsPrefix.isInfix ⟨bs3, ?_⟩
        rw [dotgit_eq, ← e1, ← e2, ← e3, ← e4]
        rfl
    · simp only [if_neg hp]
      have hbs : ¬ (str ".git") <:+: bs :=
        fun hi => h (List.infix_cons hi)
      rw [ih hbs]
      rfl

theorem splitOnChar_ne_nil (c : Char) : ∀ (s1 : Str), splitOnChar c s1 ≠ [] := by
  intro s1
  cases s1 with
  | nil => simp [splitOnChar]
  | cons x xs =>
    rw [splitOnChar]
    by_cases hx : x = c
    · simp [hx]
    · simp only [if_neg hx]
      cases splitOnChar c xs <;> simp

theorem joinWithChar_splitOnChar (c : Char) : ∀ (s1 : Str),
    joinWithChar c (splitOnChar c s1) = s1 := by
  intro s1
  induction s1 with
  | nil => rfl
  | cons x xs ih =>
    rw [splitOnChar]
    by_cases hx : x = c
    · rw [if_pos hx]
      cases hs : splitOnChar c xs with
      | nil => exact absurd hs (splitOnChar_ne_nil c xs)
      | cons y ys =>
        rw [hs] at ih
        rw [joinWithChar, hx, ih]
        rfl
    · rw [if_neg hx]
      cases hs : splitOnChar c xs with
      | nil => exact absurd hs (splitOnChar_ne_nil c xs)
      | cons y ys =>
        rw [hs] at ih
        cases ys with
        | nil => rw [joinWithChar, ← ih, joinWithChar]
        | cons z zs =>
          rw [joinWithChar, ← ih, joinWithChar]
          rfl

theorem splitOnChar_append_sep (c : Char) (l r : Str) (h : c ∉ l) :
    splitOnChar c (l ++ c :: r) = l :: splitOnChar c r := by
  induction l with
  | nil => simp [splitOnChar]
  | cons x xs ih =>
    have hx : ¬ x = c := fun e => h (e ▸ List.mem_cons_self x xs)
    rw [List.cons_append, splitOnChar, if_neg hx,
      ih (fun hm => h (List.mem_cons_of_mem x hm))]

/-! ## URL canonicalization: the claim shapes -/

theorem annStr_shape (ann : Option Bool) :
    annStr ann = [] ∨ ∃ r, annStr ann = ' ' :: r := by
  cases ann with
  | none => exact Or.inl rfl
  | some b =>
    cases b with
    | false => exact Or.inr ⟨str "(push)", rfl⟩
    | true => exact Or.inr ⟨str "(fetch)", rfl⟩

/-- On a space-free input that does not end in `.git`, the first two
stages of `get_url_ending` are the identity. -/
theorem get_url_ending_no_strip (u : Str)
    (hsp : ∀ c ∈ u, c ≠ ' ')
    (hgit : ¬ (str ".git") <:+ u) :
    get_url_ending u =
      (if (str "git@").isPrefixOf u then (splitOnceChar ':' u).map (fun p => p.2)
       else if (str "http").isPrefixOf u then
         some (joinWithChar '/' ((splitOnChar '/' u).drop 3))
       else none) := by
  simp only [get_url_ending]
  rw [takeWhile_eq_self_of _ _ (fun c hc => by simp [hsp c hc])]
  have hs : (str ".git").isSuffixOf u = false := by
    rw [Bool.eq_false_iff]
    exact fun hc => hgit (List.isSuffixOf_iff_suffix.mp hc)
  rw [hs]
  simp

/-- Stripping the optional `.git` suffix and `" (fetch)"`/`" (push)"`
annotation: on a space-free base without interior `.git`,
`get_url_ending` of the decorated URL equals `get_url_ending` of the
base. -/
theorem get_url_ending_strip (base sfxStr : Str) (ann : Option Bool)
    (hsfx : sfxStr = [] ∨ sfxStr = str ".git")
    (hsp : ∀ c ∈ base, c ≠ ' ')
    (hgit : ¬ (str ".git") <:+: base) :
    get_url_ending (base ++ sfxStr ++ annStr ann) = get_url_ending base := by
  have hsfxF : (str ".git").isSuffixOf base = false := by
    rw [Bool.eq_false_iff]
    exact fun hc => hgit (List.isSuffixOf_iff_suffix.mp hc).isInfix
  have hdgsp : ∀ c ∈ sfxStr, c ≠ ' ' := by
    rcases hsfx with rfl | rfl
    · simp
    · decide
  have hsp2 : ∀ c ∈ base ++ sfxStr, c ≠ ' ' := no_space_append hsp hdgsp
  simp only [get_url_ending]
  rw [takeWhile_no_space _ _ hsp2 (annStr_shape ann)]
  rw [takeWhile_eq_self_of _ _ (fun c hc => by simp [hsp c hc])]
  rcases hsfx with rfl | rfl
  · rw [List.append_nil]
  · have hsfxT : (str ".git").isSuffixOf (base ++ str ".git") = true :=
      List.isSuffixOf_iff_suffix.mpr (List.suffix_append base (str ".git"))
    rw [hsfxT, hsfxF, splitOnceSub_dotgit base hgit]
    simp

/-- The HTTPS branch: drop scheme, empty chunk and host, rejoin. -/
theorem get_url_ending_https_plain (host p : Str) (hslash : '/' ∉ host)
    (hsp : ∀ c ∈ str "https://" ++ host ++ ('/' :: p), c ≠ ' ')
    (hgit : ¬ (str ".git") <:+: (str "https://" ++ host ++ ('/' :: p))) :
    get_url_ending (str "https://" ++ host ++ ('/' :: p)) = some p := by
  rw [get_url_ending_no_strip _ hsp (fun hc => hgit hc.isInfix)]
  have hng : (str "git@").isPrefixOf (str "https://" ++ host ++ ('/' :: p)) = false := by
    apply Bool.eq_false_iff.mpr
    intro hc
    rw [List.isPrefixOf_iff_prefix] at hc
    obtain ⟨t, ht⟩ := hc
    have h3 : some 'g' = some 'h' := congrArg List.head? ht
    exact absurd (Option.some.inj h3) (by decide)
  have hhp : (str "http").isPrefixOf (str "https://" ++ host ++ ('/' :: p)) = true := by
    rw [List.isPrefixOf_iff_prefix, List.append_assoc]
    exact List.IsPrefix.trans (by decide) (List.prefix_append _ _)
  rw [hng, hhp, if_neg (by simp), if_pos rfl]
  have e : str "https://" ++ host ++ ('/' :: p)
      = str "https:" ++ '/' :: ([] ++ '/' :: (host ++ '/' :: p)) := by
    simp only [List.append_assoc, List.nil_append]
    rfl
  rw [e, splitOnChar_append_sep '/' (str "https:") _ (by decide),
    splitOnChar_append_sep '/' [] _ (by decide),
    splitOnChar_append_sep '/' host p hslash]
  simp only [List.drop_succ_cons, List.drop_zero]
  rw [joinWithChar_splitOnChar]

/-- The SSH branch: everything after the first colon. -/
theorem get_url_ending_ssh_plain (host p : Str) (hcolon : ':' ∉ host)
    (hsp : ∀ c ∈ str "git@" ++ host ++ (':' :: p), c ≠ ' ')
    (hgit : ¬ (str ".git") <:+: (str "git@" ++ host ++ (':' :: p))) :
    get_url_ending (str "git@" ++ host ++ (':' :: p)) = some p := by
  rw [get_url_ending_no_strip _ hsp (fun hc => hgit hc.isInfix)]
  have hgp : (str "git@").isPrefixOf (str "git@" ++ host ++ (':' :: p)) = true := by
    rw [List.isPrefixOf_iff_prefix, List.append_assoc]
    exact List.prefix_append _ _
  rw [hgp, if_pos rfl]
  have h4 : ':' ∉ str "git@" ++ host := by
    intro hm
    rcases List.mem_append.mp hm with h | h
    · exact absurd h (by decide)
    · exact hcolon h
  rw [splitOnceChar_of_not_mem ':' _ p h4]
  rfl

/-- C2 counterexample: the claim is false as stated. The host
`my.github.com` contains `.git` as a substring (inside `.github`), so
for the well-formed URL `https://my.github.com/a/b.git` the code's
`split_once(".git")` cuts at that first interior occurrence — not at the
trailing suffix — and canonicalization returns `""` instead of `a/b`. -/
theorem get_url_ending_c2_counterexample :
    get_url_ending (str "https://my.github.com/a/b.git") = some (str "")
      ∧ str "" ≠ str "a/b" :=
  ⟨by decide, by decide⟩

/-- C2 (amended): for every well-formed HTTPS URL
`https://host/a/b(.git)?( (fetch|push))?` whose components are
space-free, whose host contains no `/`, and in which `.git` occurs
nowhere in `https://host/a/b` (so the only occurrence is the optional
trailing suffix), canonicalization returns exactly `a/b`; likewise for
every well-formed SSH URL `git@host:a/b(.git)?( (fetch|push))?` whose
host additionally contains no `:`. Without the no-interior-`.git`
hypothesis the code truncates at the first occurrence of `.git` instead
of the trailing one (see the counterexample). -/
theorem get_url_ending_wellformed :
    (∀ (host a b : Str) (sfx : Bool) (ann : Option Bool),
      (∀ c ∈ host, c ≠ ' ') → (∀ c ∈ a, c ≠ ' ') → (∀ c ∈ b, c ≠ ' ') →
      '/' ∉ host →
      ¬ (str ".git") <:+: (str "https://" ++ host ++ ('/' :: (a ++ '/' :: b))) →
      get_url_ending ((str "https://" ++ host ++ ('/' :: (a ++ '/' :: b)))
          ++ (if sfx then str ".git" else []) ++ annStr ann)
        = some (a ++ str "/" ++ b)) ∧
    (∀ (host a b : Str) (sfx : Bool) (ann : Option Bool),
      (∀ c ∈ host, c ≠ ' ') → (∀ c ∈ a, c ≠ ' ') → (∀ c ∈ b, c ≠ ' ') →
      ':' ∉ host →
      ¬ (str ".git") <:+: (str "git@" ++ host ++ (':' :: (a ++ '/' :: b))) →
      get_url_ending ((str "git@" ++ host ++ (':' :: (a ++ '/' :: b)))
          ++ (if sfx then str ".git" else []) ++ annStr ann)
        = some (a ++ str "/" ++ b)) := by
  constructor
  · intro host a b sfx ann hh ha hb hs hg
    have hab : ∀ c ∈ ('/' :: (a ++ '/' :: b)), c ≠ ' ' := by
      intro c hc
      rcases List.mem_cons.mp hc with rfl | hc2
      · decide
      · rcases List.mem_append.mp hc2 with h | h
        · exact ha c h
        · rcases List.mem_cons.mp h with rfl | h2
          · decide
          · exact hb c h2
    have hsp : ∀ c ∈ str "https://" ++ host ++ ('/' :: (a ++ '/' :: b)), c ≠ ' ' :=
      no_space_append (no_space_append (by decide) hh) hab
    rw [get_url_ending_strip _ _ ann
      (by cases sfx with | false => exact Or.inl rfl | true => exact Or.inr rfl) hsp hg]
    rw [get_url_ending_https_plain host (a ++ '/' :: b) hs hsp hg]
    simp only [List.append_assoc]
    rfl
  · intro host a b sfx ann hh ha hb hs hg
    have hab : ∀ c ∈ (':' :: (a ++ '/' :: b)), c ≠ ' ' := by
      intro c hc
      rcases List.mem_cons.mp hc with rfl | hc2
      · decide
      · rcases List.mem_append.mp hc2 with h | h
        · exact ha c h
        · rcases List.mem_cons.mp h with rfl | h2
          · decide
          · exact hb c h2
    have hsp : ∀ c ∈ str "git@" ++ host ++ (':' :: (a ++ '/' :: b)), c ≠ ' ' :=
      no_space_append (no_space_append (by decide) hh) hab
    rw [get_url_ending_strip _ _ ann
      (by cases sfx with | false => exact Or.inl rfl | true => exact Or.inr rfl) hsp hg]
    rw [get_url_ending_ssh_plain host (a ++ '/' :: b) hs hsp hg]
    simp only [List.append_assoc]
    rfl

/-- Witness for the amended C2 theorem at the repository's own test
vectors (`https://github.com/linebender/runebender` and
`git@github.com:gbrls/Bootloader.git (fetch)`). -/
theorem get_url_ending_wellformed_witness :
    get_url_ending ((str "https://" ++ str "github.com"
        ++ ('/' :: (str "linebender" ++ '/' :: str "runebender")))
        ++ (if false then str ".git" else []) ++ annStr none)
      = some (str "linebender" ++ str "/" ++ str "runebender") ∧
    get_url_ending ((str "git@" ++ str "github.com"
        ++ (':' :: (str "gbrls" ++ '/' :: str "Bootloader")))
        ++ (if true then str ".git" else []) ++ annStr (some true))
      = some (str "gbrls" ++ str "/" ++ str "Bootloader") :=
  ⟨get_url_ending_wellformed.1 (str "github.com") (str "linebender") (str "runebender")
      false none (by decide) (by decide) (by decide) (by decide) (by decide),
    get_url_ending_wellformed.2 (str "github.com") (str "gbrls") (str "Bootloader")
      true (some true) (by decide) (by decide) (by decide) (by decide) (by decide)⟩

/-! ## C3: canonicalization strictly shrinks its input -/

theorem length_takeWhile_le (p : Char → Bool) : ∀ (l : Str),
    (l.takeWhile p).length ≤ l.length := by
  intro l
  induction l with
  | nil => simp
  | cons x xs ih =>
    rw [List.takeWhile_cons]
    by_cases hx : p x
    · rw [if_pos hx]
      simpa using ih
    · rw [if_neg hx]
      simp

theorem joinWithChar_drop_one_length (c : Char) : ∀ (l : List Str),
    (joinWithChar c (l.drop 1)).length ≤ (joinWithChar c l).length := by
  intro l
  match l with
  | [] => simp
  | [x] => simp [joinWithChar]
  | x :: y :: ys =>
    show (joinWithChar c (y :: ys)).length ≤ (x ++ c :: joinWithChar c (y :: ys)).length
    simp
    omega

theorem splitOnChar_head_ne (c x : Char) (xs : Str) (hx : ¬ x = c) :
    ∃ y ys, splitOnChar c (x :: xs) = (x :: y) :: ys := by
  rw [splitOnChar, if_neg hx]
  cases hs : splitOnChar c xs with
  | nil => exact absurd hs (splitOnChar_ne_nil c xs)
  | cons y ys => exact ⟨y, ys, rfl⟩

/-- The branch stage of `get_url_ending` returns a string strictly
shorter than its input whenever it succeeds. -/
theorem get_url_ending_branch_shrinks (u2 w : Str)
    (h : (if (str "git@").isPrefixOf u2 then (splitOnceChar ':' u2).map (fun p => p.2)
          else if (str "http").isPrefixOf u2 then
            some (joinWithChar '/' ((splitOnChar '/' u2).drop 3))
          else none) = some w) :
    w.length < u2.length := by
  by_cases hg : (str "git@").isPrefixOf u2
  · rw [if_pos hg] at h
    cases hsc : splitOnceChar ':' u2 with
    | none => rw [hsc] at h; simp at h
    | some q =>
      obtain ⟨q1, q2⟩ := q
      rw [hsc] at h
      simp only [Option.map_some'] at h
      have hw : w = q2 := (Option.some.inj h).symm
      rw [hw]
      exact splitOnceChar_snd_length ':' u2 q1 q2 hsc
  · rw [if_neg hg] at h
    by_cases hh : (str "http").isPrefixOf u2
    · rw [if_pos hh] at h
      have hw : w = joinWithChar '/' ((splitOnChar '/' u2).drop 3) :=
        (Option.some.inj h).symm
      obtain ⟨t, ht⟩ := List.isPrefixOf_iff_prefix.mp hh
      have hu2 : u2 = 'h' :: 't' :: 't' :: 'p' :: t := by
        rw [← ht]; rfl
      subst hu2
      obtain ⟨y, ys, hs0⟩ := splitOnChar_head_ne '/' 'h' _ (by decide)
      have hjoin : joinWithChar '/' (('h' :: y) :: ys) = 'h' :: 't' :: 't' :: 'p' :: t := by
        rw [← hs0]
        exact joinWithChar_splitOnChar _ _
      rw [hw, hs0]
      cases ys with
      | nil =>
        show (joinWithChar '/' []).length < _
        simp [joinWithChar]
      | cons z zs =>
        have hlen : ('h' :: y).length + 1 + (joinWithChar '/' (z :: zs)).length
            = t.length + 4 := by
          have := congrArg List.length hjoin
          rw [joinWithChar] at this
          simp at this
          simp
          omega
        have hd2 : (joinWithChar '/' ((z :: zs).drop 1)).length
            ≤ (joinWithChar '/' (z :: zs)).length := joinWithChar_drop_one_length '/' _
        have hd1 : (joinWithChar '/' (zs.drop 1)).length
            ≤ (joinWithChar '/' zs).length := joinWithChar_drop_one_length '/' _
        show (joinWithChar '/' (zs.drop 1)).length < ('h' :: 't' :: 't' :: 'p' :: t).length
        simp only [List.drop_succ_cons] at hd2 ⊢
        simp only [List.drop_zero] at hd2
        simp only [List.length_cons] at hlen ⊢
        omega
    · rw [if_neg hh] at h
      simp at h

/-- The two strip stages of `get_url_ending`, written out. -/
theorem get_url_ending_eq (url : Str) :
    get_url_ending url =
      (match (if (str ".git").isSuffixOf (url.takeWhile (fun ch => ch ≠ ' ')) then
               (splitOnceSub (str ".git") (url.takeWhile (fun ch => ch ≠ ' '))).map
                 (fun p => p.1)
             else some (url.takeWhile (fun ch => ch ≠ ' '))) with
       | none => none
       | some u2 =>
         if (str "git@").isPrefixOf u2 then (splitOnceChar ':' u2).map (fun p => p.2)
         else if (str "http").isPrefixOf u2 then
           some (joinWithChar '/' ((splitOnChar '/' u2).drop 3))
         else none) := rfl

/-- Whenever `get_url_ending` succeeds, its output is strictly shorter
than its input; in particular it has no fixed point. -/
theorem get_url_ending_shrinks : ∀ (u w : Str),
    get_url_ending u = some w → w.length < u.length := by
  intro u w h
  rw [get_url_ending_eq] at h
  have hlen1 : (u.takeWhile (fun ch => ch ≠ ' ')).length ≤ u.length :=
    length_takeWhile_le _ u
  by_cases hsf : (str ".git").isSuffixOf (u.takeWhile (fun ch => ch ≠ ' '))
  · rw [if_pos hsf] at h
    cases hss : splitOnceSub (str ".git") (u.takeWhile (fun ch => ch ≠ ' ')) with
    | none => rw [hss] at h; simp at h
    | some q =>
      obtain ⟨a, b⟩ := q
      rw [hss] at h
      simp only [Option.map_some'] at h
      have ha : a.length ≤ (u.takeWhile (fun ch => ch ≠ ' ')).length :=
        splitOnceSub_fst_length _ _ a b hss
      have := get_url_ending_branch_shrinks a w h
      omega
  · rw [if_neg hsf] at h
    have := get_url_ending_branch_shrinks _ w h
    omega

/-- C3 counterexample: a URL on which canonicalization succeeds, whose
result is structurally valid input (it starts with `git@`), and on which
the second application succeeds but yields a different string — so
canonicalization is not idempotent on the claim's domain. -/
theorem get_url_ending_c3_counterexample :
    get_url_ending (str "https://host/git@x:y/z") = some (str "git@x:y/z") ∧
    (str "git@").isPrefixOf (str "git@x:y/z") = true ∧
    get_url_ending (str "git@x:y/z") = some (str "y/z") ∧
    str "y/z" ≠ str "git@x:y/z" :=
  ⟨by decide, by decide, by decide, by decide⟩

/-- C3 (amended): canonicalization is never idempotent where the twice-
application is defined. For every URL on which canonicalization
succeeds, applying canonicalization to the result never returns the
result unchanged (each successful application strictly shortens the
string, so a second application either fails or produces a strictly
shorter, hence different, string). -/
theorem get_url_ending_not_idempotent (u w : Str)
    (h : get_url_ending u = some w) :
    get_url_ending w ≠ some w := by
  intro hc
  have h1 := get_url_ending_shrinks u w h
  have h2 := get_url_ending_shrinks w w hc
  omega

/-- Witness for the amended C3 theorem at the counterexample input. -/
theorem get_url_ending_not_idempotent_witness :
    get_url_ending (str "git@x:y/z") ≠ some (str "git@x:y/z") :=
  get_url_ending_not_idempotent (str "https://host/git@x:y/z") (str "git@x:y/z")
    (by decide)

/-! ## C7: clone guard -/

theorem anyCanonEq_of_mem (key u : Str) : ∀ (l : List Str),
    (∀ v ∈ l, (get_url_ending v).isSome = true) →
    u ∈ l → get_url_ending u = some key →
    anyCanonEq key l = some true := by
  intro l
  induction l with
  | nil => intro _ hu _; exact absurd hu (List.not_mem_nil u)
  | cons v vs ih =>
    intro hall hu hku
    cases hv : get_url_ending v with
    | none =>
      have hs := hall v (List.mem_cons_self v vs)
      rw [hv] at hs
      simp at hs
    | some k =>
      simp only [anyCanonEq, hv]
      by_cases hk : k = key
      · rw [if_pos hk]
      · rw [if_neg hk]
        rcases List.mem_cons.mp hu with rfl | hmem
        · rw [hku] at hv
          exact absurd (Option.some.inj hv) (fun e => hk e.symm)
        · exact ih (fun w hw => hall w (List.mem_cons_of_mem v hw)) hmem hku

theorem findCanonMatch_finds (key : Str) : ∀ (data : Cache),
    (∀ e ∈ data, ∀ v ∈ e.upstream, (get_url_ending v).isSome = true) →
    (∃ e ∈ data, anyCanonEq key e.upstream = some true) →
    ∃ entry, findCanonMatch key data = some (some entry) ∧ entry ∈ data ∧
      anyCanonEq key entry.upstream = some true := by
  intro data
  induction data with
  | nil =>
    intro _ hex
    obtain ⟨e, he, _⟩ := hex
    exact absurd he (List.not_mem_nil e)
  | cons f fs ih =>
    intro hall hex
    cases hf : anyCanonEq key f.upstream with
    | none =>
      exfalso
      -- a panicking remote contradicts `hall`
      have : ∀ (l : List Str), (∀ v ∈ l, (get_url_ending v).isSome = true) →
          anyCanonEq key l ≠ none := by
        intro l
        induction l with
        | nil => intro _ hcon; simp [anyCanonEq] at hcon
        | cons v vs ih2 =>
          intro h2 hcon
          cases hv : get_url_ending v with
          | none =>
            have hs := h2 v (List.mem_cons_self v vs)
            rw [hv] at hs
            simp at hs
          | some k =>
            simp only [anyCanonEq, hv] at hcon
            by_cases hk : k = key
            · rw [if_pos hk] at hcon; exact Option.noConfusion hcon
            · rw [if_neg hk] at hcon
              exact ih2 (fun w hw => h2 w (List.mem_cons_of_mem v hw)) hcon
      exact this f.upstream (hall f (List.mem_cons_self f fs)) hf
    | some b =>
      cases b with
      | true =>
        refine ⟨f, ?_, List.mem_cons_self f fs, hf⟩
        simp only [findCanonMatch, hf]
      | false =>
        obtain ⟨e, he, hme⟩ := hex
        rcases List.mem_cons.mp he with rfl | he2
        · rw [hf] at hme
          exact absurd (Option.some.inj hme) (by simp)
        · obtain ⟨entry, h1, h2, h3⟩ :=
            ih (fun w hw => hall w (List.mem_cons_of_mem f hw)) ⟨e, he2, hme⟩
          refine ⟨entry, ?_, List.mem_cons_of_mem f h2, h3⟩
          simp only [findCanonMatch, hf]
          exact h1

/-- C7 counterexample: the claim fails as universally stated, in two
ways. (a) With an earlier record whose remote is not URL-shaped
(`ftp://x`), the guard panics (`none`) instead of reporting the matching
record's path. (b) With an earlier record whose remotes canonicalize to
the same `foo/bar`, the guard reports the first matching record's path
`/p1`, not the path `/p2` of the record that carries the literal remote
`git@github.com:foo/bar.git`. -/
theorem clone_guard_counterexample :
    clone [str "https://github.com/foo/bar.git"]
        [⟨str "/p1", [str "ftp://x"], none⟩,
         ⟨str "/p2", [str "git@github.com:foo/bar.git"], none⟩] = none ∧
    clone [str "https://github.com/foo/bar.git"]
        [⟨str "/p1", [str "https://github.com/foo/bar"], none⟩,
         ⟨str "/p2", [str "git@github.com:foo/bar.git"], none⟩]
      = some (CloneOutcome.reportPath (str "https://github.com/foo/bar.git") (str "/p1")) ∧
    str "/p1" ≠ str "/p2" :=
  ⟨by decide, by decide, by decide⟩

/-- C7 (amended): for every cache all of whose remotes canonicalize
without panicking and which contains a record with remote
`git@github.com:foo/bar.git`, invoking the clone guard with an argument
list whose first URL-like argument is `https://github.com/foo/bar.git`
reports the existing local path of the first record whose remotes
canonicalize to `foo/bar` (such a record exists, the cross-scheme URLs
canonicalizing equally), and does not invoke the external clone tool. -/
theorem clone_guard_dedup (args : List Str) (data : Cache)
    (hurl : args.find? (fun s1 =>
        (str "http").isPrefixOf s1 || (str "git@").isPrefixOf s1)
      = some (str "https://github.com/foo/bar.git"))
    (hall : ∀ e ∈ data, ∀ v ∈ e.upstream, (get_url_ending v).isSome = true)
    (hmem : ∃ e ∈ data, (str "git@github.com:foo/bar.git") ∈ e.upstream) :
    ∃ entry, entry ∈ data ∧
      anyCanonEq (str "foo/bar") entry.upstream = some true ∧
      clone args data
        = some (CloneOutcome.reportPath (str "https://github.com/foo/bar.git") entry.path) ∧
      ∀ args2, clone args data ≠ some (CloneOutcome.runClone args2) := by
  have hssh : get_url_ending (str "git@github.com:foo/bar.git") = some (str "foo/bar") := by
    decide
  have hhttps : get_url_ending (str "https://github.com/foo/bar.git")
      = some (str "foo/bar") := by decide
  obtain ⟨e, he, hv⟩ := hmem
  have hexist : ∃ e2 ∈ data, anyCanonEq (str "foo/bar") e2.upstream = some true :=
    ⟨e, he, anyCanonEq_of_mem _ _ _ (hall e he) hv hssh⟩
  obtain ⟨entry, h1, h2, h3⟩ := findCanonMatch_finds _ data hall hexist
  have hclone : clone args data
      = some (CloneOutcome.reportPath (str "https://github.com/foo/bar.git") entry.path) := by
    simp only [clone, hurl, hhttps, h1]
  exact ⟨entry, h2, h3, hclone, fun args2 hc => by
    rw [hclone] at hc
    exact CloneOutcome.noConfusion (Option.some.inj hc)⟩

/-- Witness for the amended C7 theorem on a one-record cache. -/
theorem clone_guard_dedup_witness :
    ∃ entry, entry ∈ ([⟨str "/home/p", [str "git@github.com:foo/bar.git"], none⟩] : Cache) ∧
      anyCanonEq (str "foo/bar") entry.upstream = some true ∧
      clone [str "--depth=1", str "https://github.com/foo/bar.git"]
          [⟨str "/home/p", [str "git@github.com:foo/bar.git"], none⟩]
        = some (CloneOutcome.reportPath (str "https://github.com/foo/bar.git") entry.path) ∧
      ∀ args2, clone [str "--depth=1", str "https://github.com/foo/bar.git"]
          [⟨str "/home/p", [str "git@github.com:foo/bar.git"], none⟩]
        ≠ some (CloneOutcome.runClone args2) :=
  clone_guard_dedup [str "--depth=1", str "https://github.com/foo/bar.git"]
    [⟨str "/home/p", [str "git@github.com:foo/bar.git"], none⟩]
    (by decide) (by decide) (by decide)

/-! ## C4: the merge keeps at most one record per path -/

theorem countP_set_lemma (p : α → Bool) (l : List α) (i : Nat) (a : α) (hi : i < l.length) :
    (l.set i a).countP p + (if p (l.get ⟨i, hi⟩) then 1 else 0)
      = l.countP p + (if p a then 1 else 0) := by
  rw [List.set_eq_take_cons_drop a hi]
  conv_rhs => rw [← List.take_append_drop i l, List.drop_eq_getElem_cons hi]
  rw [List.countP_append, List.countP_append, List.countP_cons, List.countP_cons]
  have : l.get ⟨i, hi⟩ = l[i] := rfl
  rw [this]
  omega

theorem getLast?_set (l : List α) (i : Nat) (z : α) (hi : i < l.length)
    (hz : l.getLast? = some z) : (l.set i z).getLast? = some z := by
  rw [List.getLast?_eq_getElem?] at hz ⊢
  rw [List.length_set, List.getElem?_set]
  by_cases hil : i = l.length - 1
  · rw [if_pos hil, if_pos hi]
  · rw [if_neg hil]
    exact hz

theorem countP_dropLast_getLast (p : α → Bool) (l : List α) (z : α)
    (hz : l.getLast? = some z) :
    l.dropLast.countP p + (if p z then 1 else 0) = l.countP p := by
  have hne : l ≠ [] := by intro h; subst h; simp at hz
  have hz2 : l.getLast hne = z := by
    rw [List.getLast?_eq_getLast l hne] at hz
    exact Option.some.inj hz
  conv_rhs => rw [← List.dropLast_append_getLast hne]
  rw [List.countP_append, hz2]
  simp [List.countP_cons]

theorem countP_swapRemove (p : α → Bool) (l : List α) (i : Nat) (hi : i < l.length) :
    (swapRemove l i).countP p + (if p (l.get ⟨i, hi⟩) then 1 else 0) = l.countP p := by
  have hne : l ≠ [] := by intro h; subst h; simp at hi
  rw [swapRemove, List.getLast?_eq_getLast l hne]
  show (l.set i (l.getLast hne)).dropLast.countP p
      + (if p (l.get ⟨i, hi⟩) then 1 else 0) = l.countP p
  have hz : l.getLast? = some (l.getLast hne) := List.getLast?_eq_getLast l hne
  have h1 : (l.set i (l.getLast hne)).getLast? = some (l.getLast hne) :=
    getLast?_set l i _ hi hz
  have h2 := countP_dropLast_getLast p (l.set i (l.getLast hne)) _ h1
  have h3 := countP_set_lemma p l i (l.getLast hne) hi
  omega

theorem findWithIdx_none_all (p : α → Bool) : ∀ (l : List α),
    findWithIdx p l = none → ∀ x ∈ l, p x = false := by
  intro l
  induction l with
  | nil => intro _ x hx; exact absurd hx (List.not_mem_nil x)
  | cons y ys ih =>
    intro h x hx
    by_cases hy : p y
    · rw [findWithIdx, if_pos hy] at h
      exact Option.noConfusion h
    · rw [findWithIdx, if_neg hy] at h
      rcases List.mem_cons.mp hx with rfl | hx2
      · exact Bool.eq_false_iff.mpr hy
      · cases hf : findWithIdx p ys with
        | none => exact ih hf x hx2
        | some q => rw [hf] at h; simp at h

theorem findWithIdx_some_spec (p : α → Bool) : ∀ (l : List α) (i : Nat) (x : α),
    findWithIdx p l = some (i, x) →
    ∃ hi : i < l.length, l.get ⟨i, hi⟩ = x ∧ p x = true := by
  intro l
  induction l with
  | nil => intro i x h; exact Option.noConfusion h
  | cons y ys ih =>
    intro i x h
    by_cases hy : p y
    · rw [findWithIdx, if_pos hy] at h
      have h2 := Option.some.inj h
      have hi0 : i = 0 := (congrArg Prod.fst h2).symm
      have hx : x = y := (congrArg Prod.snd h2).symm
      subst hi0
      subst hx
      exact ⟨by simp, rfl, hy⟩
    · rw [findWithIdx, if_neg hy] at h
      cases hf : findWithIdx p ys with
      | none => rw [hf] at h; simp at h
      | some q =>
        obtain ⟨j, w⟩ := q
        rw [hf] at h
        simp only [Option.map_some'] at h
        have h2 := Option.some.inj h
        have hi0 : i = j + 1 := (congrArg Prod.fst h2).symm
        have hx : x = w := (congrArg Prod.snd h2).symm
        subst hi0
        obtain ⟨hj, hget, hp2⟩ := ih j w hf
        refine ⟨by simpa using Nat.succ_lt_succ hj, ?_, ?_⟩
        · rw [hx]
          exact hget
        · rw [hx]
          exact hp2

theorem countPath_update (d : ProjectMetadata) (cache : Cache)
    (hinv : ∀ r, countPath cache r ≤ 1) :
    (∀ q, countPath (update_repo_data d cache) q ≤ 1) ∧
    countPath (update_repo_data d cache) d.path = 1 := by
  cases hf : findWithIdx (fun e => e.path == d.path) cache with
  | none =>
    have hupd : update_repo_data d cache = cache ++ [d] := by
      simp only [update_repo_data, hf]
    have h0 : cache.countP (fun e => e.path == d.path) = 0 := by
      rw [List.countP_eq_zero]
      intro a ha
      rw [findWithIdx_none_all _ _ hf a ha]
      simp
    rw [hupd]
    constructor
    · intro q
      rw [countPath, List.countP_append]
      by_cases hq : d.path = q
      · subst hq
        rw [h0]
        simp [List.countP_cons]
      · have hc := hinv q
        rw [countPath] at hc
        have hne : (d.path == q) = false := beq_eq_false_iff_ne.mpr hq
        simp [List.countP_cons, hne]
        omega
    · rw [countPath, List.countP_append, h0]
      simp [List.countP_cons]
  | some q0 =>
    obtain ⟨i, x⟩ := q0
    obtain ⟨hi, hget, hpx⟩ := findWithIdx_some_spec _ cache i x hf
    have hupd : update_repo_data d cache = swapRemove cache i ++ [d] := by
      simp only [update_repo_data, hf]
    have hxp : x.path = d.path := by
      have h := hpx
      simp only [beq_iff_eq] at h
      exact h
    rw [hupd]
    have hkey : ∀ q : Str, (swapRemove cache i).countP (fun e => e.path == q)
        + (if (x.path == q) = true then 1 else 0)
        = cache.countP (fun e => e.path == q) := by
      intro q
      have h := countP_swapRemove (fun e => e.path == q) cache i hi
      rw [hget] at h
      exact h
    have hmain : ∀ q : Str, countPath (swapRemove cache i ++ [d]) q ≤ 1 ∧
        (d.path = q → countPath (swapRemove cache i ++ [d]) q = 1) := by
      intro q
      have hk := hkey q
      have hc := hinv q
      rw [countPath] at hc
      rw [countPath, List.countP_append]
      by_cases hq : d.path = q
      · have hxq : (x.path == q) = true := by
          rw [hxp, hq]
          exact beq_self_eq_true q
        rw [hxq] at hk
        simp at hk
        have hd : (d.path == q) = true := by
          rw [hq]
          exact beq_self_eq_true q
        have hsw : (swapRemove cache i).countP (fun e => e.path == q) = 0 := by omega
        have hone : List.countP (fun e => e.path == q) [d] = 1 := by
          simp [List.countP_cons, hd]
        rw [hsw, hone]
        exact ⟨by omega, fun _ => by omega⟩
      · have hd : (d.path == q) = false := beq_eq_false_iff_ne.mpr hq
        have hzero : List.countP (fun e => e.path == q) [d] = 0 := by
          simp [List.countP_cons, hd]
        rw [hzero]
        refine ⟨?_, fun he => absurd he hq⟩
        omega
    exact ⟨fun q => (hmain q).1, (hmain d.path).2 rfl⟩

theorem filter_update_twice (cache : Cache) (d1 d2 : ProjectMetadata)
    (hp : d1.path = d2.path)
    (hinv : ∀ r, countPath cache r ≤ 1) :
    (update_repo_data d2 (update_repo_data d1 cache)).filter
        (fun e => e.path == d2.path) = [d2] := by
  have h1 := (countPath_update d1 cache hinv).2
  rw [hp] at h1
  set c1 := update_repo_data d1 cache with hc1
  cases hf : findWithIdx (fun e => e.path == d2.path) c1 with
  | none =>
    exfalso
    have h0 : c1.countP (fun e => e.path == d2.path) = 0 := by
      rw [List.countP_eq_zero]
      intro a ha
      rw [findWithIdx_none_all _ _ hf a ha]
      simp
    rw [countPath] at h1
    omega
  | some q0 =>
    obtain ⟨i, x⟩ := q0
    obtain ⟨hi, hget, hpx⟩ := findWithIdx_some_spec _ _ i x hf
    have hupd : update_repo_data d2 c1 = swapRemove c1 i ++ [d2] := by
      simp only [update_repo_data, hf]
    rw [hupd, List.filter_append]
    have hsw0 : (swapRemove c1 i).countP (fun e => e.path == d2.path) = 0 := by
      have h := countP_swapRemove (fun e => e.path == d2.path) c1 i hi
      rw [hget, hpx] at h
      simp at h
      rw [countPath] at h1
      omega
    have hswnil : (swapRemove c1 i).filter (fun e => e.path == d2.path) = [] := by
      rw [List.filter_eq_nil_iff]
      intro a ha
      rw [List.countP_eq_zero] at hsw0
      exact hsw0 a ha
    rw [hswnil]
    simp [List.filter_cons, beq_self_eq_true]

/-- C4: merging a freshly fetched record preserves the at-most-one-
record-per-path invariant, and scanning the same repository path twice
in a row (two successive `update_repo_data` calls whose records share a
path) leaves exactly one record for that path in the final cache,
carrying the second call's data. -/
theorem update_repo_data_merge (cache : Cache) (d1 d2 : ProjectMetadata)
    (hp : d1.path = d2.path)
    (hinv : ∀ r, countPath cache r ≤ 1) :
    (∀ q, countPath (update_repo_data d1 cache) q ≤ 1) ∧
    (∀ q, countPath (update_repo_data d2 (update_repo_data d1 cache)) q ≤ 1) ∧
    (update_repo_data d2 (update_repo_data d1 cache)).filter
        (fun e => e.path == d2.path) = [d2] :=
  ⟨(countPath_update d1 cache hinv).1,
    (countPath_update d2 _ (countPath_update d1 cache hinv).1).1,
    filter_update_twice cache d1 d2 hp hinv⟩

/-- Witness for C4: rescanning path `/r` twice starting from the empty
cache. -/
theorem update_repo_data_merge_witness :
    (∀ q, countPath (update_repo_data ⟨str "/r", [], none⟩ []) q ≤ 1) ∧
    (∀ q, countPath (update_repo_data ⟨str "/r", [str "new"], none⟩
        (update_repo_data ⟨str "/r", [], none⟩ [])) q ≤ 1) ∧
    (update_repo_data ⟨str "/r", [str "new"], none⟩
        (update_repo_data ⟨str "/r", [], none⟩ [])).filter
        (fun e => e.path == (⟨str "/r", [str "new"], none⟩ : ProjectMetadata).path)
      = [⟨str "/r", [str "new"], none⟩] :=
  update_repo_data_merge [] ⟨str "/r", [], none⟩ ⟨str "/r", [str "new"], none⟩
    (by decide) (fun r => by simp [countPath])

/-! ## C5: the cache is sorted descending by `latest_commit` after a scan -/

theorem lexLe_cons_iff (x y : Int) (xs ys : List Int) :
    lexLe (x :: xs) (y :: ys) = true ↔ (x < y ∨ (x = y ∧ lexLe xs ys = true)) := by
  rw [lexLe]
  by_cases h1 : x < y
  · simp [h1]
  · by_cases h2 : y < x
    · simp [h1, h2]
      omega
    · have hxy : x = y := by omega
      simp [h1, h2, hxy]

theorem lexLe_total : ∀ (a b : List Int), lexLe a b = true ∨ lexLe b a = true := by
  intro a
  induction a with
  | nil => intro b; exact Or.inl rfl
  | cons x xs ih =>
    intro b
    cases b with
    | nil => exact Or.inr rfl
    | cons y ys =>
      rw [lexLe_cons_iff, lexLe_cons_iff]
      rcases ih ys with h | h
      · by_cases hxy : x < y
        · exact Or.inl (Or.inl hxy)
        · by_cases hyx : y < x
          · exact Or.inr (Or.inl hyx)
          · exact Or.inl (Or.inr ⟨by omega, h⟩)
      · by_cases hxy : x < y
        · exact Or.inl (Or.inl hxy)
        · by_cases hyx : y < x
          · exact Or.inr (Or.inl hyx)
          · exact Or.inr (Or.inr ⟨by omega, h⟩)

theorem lexLe_trans : ∀ (a b c : List Int),
    lexLe a b = true → lexLe b c = true → lexLe a c = true := by
  intro a
  induction a with
  | nil => intro b c _ _; rfl
  | cons x xs ih =>
    intro b c hab hbc
    cases b with
    | nil => rw [lexLe] at hab; exact absurd hab (by simp)
    | cons y ys =>
      cases c with
      | nil => rw [lexLe] at hbc; exact absurd hbc (by simp)
      | cons z zs =>
        rw [lexLe_cons_iff] at hab hbc ⊢
        rcases hab with h1 | ⟨he1, ht1⟩
        · rcases hbc with h2 | ⟨he2, _⟩
          · exact Or.inl (by omega)
          · exact Or.inl (by omega)
        · rcases hbc with h2 | ⟨he2, ht2⟩
          · exact Or.inl (by omega)
          · exact Or.inr ⟨by omega, ih ys zs ht1 ht2⟩

theorem pmLe_total (a b : ProjectMetadata) : pmLe a b = true ∨ pmLe b a = true := by
  rw [pmLe, pmLe]
  cases a.latest_commit with
  | none => exact Or.inl rfl
  | some x =>
    cases b.latest_commit with
    | none => exact Or.inr rfl
    | some y =>
      show ndtLe x y = true ∨ ndtLe y x = true
      exact lexLe_total _ _

theorem pmLe_trans (a b c : ProjectMetadata)
    (h1 : pmLe a b = true) (h2 : pmLe b c = true) : pmLe a c = true := by
  rw [pmLe] at h1 h2 ⊢
  cases ha : a.latest_commit with
  | none => rfl
  | some x =>
    cases hb : b.latest_commit with
    | none =>
      rw [ha, hb] at h1
      exact absurd h1 (by simp [optLe])
    | some y =>
      cases hc : c.latest_commit with
      | none =>
        rw [hb, hc] at h2
        exact absurd h2 (by simp [optLe])
      | some z =>
        rw [ha, hb] at h1
        rw [hb, hc] at h2
        show ndtLe x z = true
        exact lexLe_trans _ _ _ h1 h2

theorem mem_insertSorted (x : ProjectMetadata) : ∀ (l : Cache) (z : ProjectMetadata),
    z ∈ insertSorted x l ↔ z = x ∨ z ∈ l := by
  intro l
  induction l with
  | nil => intro z; simp [insertSorted]
  | cons y ys ih =>
    intro z
    rw [insertSorted]
    by_cases h : pmLe x y = true
    · rw [if_pos h]
      simp [List.mem_cons]
    · rw [if_neg h]
      simp [List.mem_cons, ih z]
      tauto

theorem pairwise_insertSorted (x : ProjectMetadata) : ∀ (l : Cache),
    l.Pairwise (fun a b => pmLe a b = true) →
    (insertSorted x l).Pairwise (fun a b => pmLe a b = true) := by
  intro l
  induction l with
  | nil => intro _; simp [insertSorted]
  | cons y ys ih =>
    intro hp
    rcases List.pairwise_cons.mp hp with ⟨hy, hys⟩
    rw [insertSorted]
    by_cases h : pmLe x y = true
    · rw [if_pos h]
      refine List.pairwise_cons.mpr ⟨?_, hp⟩
      intro z hz
      rcases List.mem_cons.mp hz with rfl | hz2
      · exact h
      · exact pmLe_trans x y z h (hy z hz2)
    · rw [if_neg h]
      have hyx : pmLe y x = true := (pmLe_total x y).resolve_left h
      refine List.pairwise_cons.mpr ⟨?_, ih hys⟩
      intro z hz
      rcases (mem_insertSorted x ys z).mp hz with rfl | hz2
      · exact hyx
      · exact hy z hz2

theorem pairwise_sortCache : ∀ (l : Cache),
    (sortCache l).Pairwise (fun a b => pmLe a b = true) := by
  intro l
  induction l with
  | nil => simp [sortCache]
  | cons x xs ih =>
    rw [sortCache]
    exact pairwise_insertSorted x _ ih

theorem build_cache_pairwise (disk : Option Json) (scanned : List ProjectMetadata) :
    (build_cache disk scanned).Pairwise (fun a b => pmLe b a = true) := by
  show ((sortCache _).reverse).Pairwise (fun a b => pmLe b a = true)
  exact List.pairwise_reverse.mpr (pairwise_sortCache _)

/-- C5: after a scan completes, the cache list is sorted descending by
`last_commit`: for any two positions `i < j`, the later record's
timestamp (when present) is not strictly more recent than the earlier
record's (when present), and once a record with an absent timestamp
appears, every later record's timestamp is also absent — i.e. no record
with a present `last_commit` appears after a record with a strictly
earlier present one, and all absent-timestamp records sort after all
present ones. -/
theorem build_cache_sorted (disk : Option Json) (scanned : List ProjectMetadata)
    (i j : Nat) (hij : i < j) (hj : j < (build_cache disk scanned).length) :
    (∀ ti tj,
      ((build_cache disk scanned).get ⟨i, Nat.lt_trans hij hj⟩).latest_commit = some ti →
      ((build_cache disk scanned).get ⟨j, hj⟩).latest_commit = some tj →
      ndtLe tj ti = true) ∧
    (((build_cache disk scanned).get ⟨i, Nat.lt_trans hij hj⟩).latest_commit = none →
      ((build_cache disk scanned).get ⟨j, hj⟩).latest_commit = none) := by
  have hpw := build_cache_pairwise disk scanned
  have hrel := List.pairwise_iff_get.mp hpw ⟨i, Nat.lt_trans hij hj⟩ ⟨j, hj⟩ hij
  constructor
  · intro ti tj hti htj
    rw [pmLe, hti, htj] at hrel
    exact hrel
  · intro hnone
    rw [pmLe, hnone] at hrel
    cases htj : ((build_cache disk scanned).get ⟨j, hj⟩).latest_commit with
    | none => rfl
    | some tj =>
      rw [htj] at hrel
      exact absurd hrel (by simp [optLe])

/-- Witness for C5: a three-record scan (one record without a commit)
checked at positions 0 and 1 of the sorted result. -/
theorem build_cache_sorted_witness :
    (∀ ti tj,
      ((build_cache none [⟨str "/a", [], some ⟨2020, 1, 1, 0, 0, 0⟩⟩,
          ⟨str "/b", [], none⟩,
          ⟨str "/c", [], some ⟨2021, 5, 5, 1, 2, 3⟩⟩]).get
        ⟨0, by decide⟩).latest_commit = some ti →
      ((build_cache none [⟨str "/a", [], some ⟨2020, 1, 1, 0, 0, 0⟩⟩,
          ⟨str "/b", [], none⟩,
          ⟨str "/c", [], some ⟨2021, 5, 5, 1, 2, 3⟩⟩]).get
        ⟨1, by decide⟩).latest_commit = some tj →
      ndtLe tj ti = true) ∧
    (((build_cache none [⟨str "/a", [], some ⟨2020, 1, 1, 0, 0, 0⟩⟩,
          ⟨str "/b", [], none⟩,
          ⟨str "/c", [], some ⟨2021, 5, 5, 1, 2, 3⟩⟩]).get
        ⟨0, by decide⟩).latest_commit = none →
      ((build_cache none [⟨str "/a", [], some ⟨2020, 1, 1, 0, 0, 0⟩⟩,
          ⟨str "/b", [], none⟩,
          ⟨str "/c", [], some ⟨2021, 5, 5, 1, 2, 3⟩⟩]).get
        ⟨1, by decide⟩).latest_commit = none) :=
  build_cache_sorted none
    [⟨str "/a", [], some ⟨2020, 1, 1, 0, 0, 0⟩⟩,
     ⟨str "/b", [], none⟩,
     ⟨str "/c", [], some ⟨2021, 5, 5, 1, 2, 3⟩⟩] 0 1 (by decide) (by decide)

/-! ## C6: the on-disk format round-trips -/

theorem digitVal_digitCh (d : Nat) (hd : d < 10) : digitVal (digitCh d) = d := by
  interval_cases d <;> decide

theorem isDigitCh_digitCh (d : Nat) (hd : d < 10) : isDigitCh (digitCh d) = true := by
  interval_cases d <;> decide

theorem natDecAux_zero : ∀ (fuel : Nat), natDecAux fuel 0 = [] := by
  intro fuel
  cases fuel with
  | zero => rfl
  | succ f => rw [natDecAux, if_pos rfl]

theorem natDecAux_all_digits : ∀ (fuel n : Nat), ∀ c ∈ natDecAux fuel n, isDigitCh c = true := by
  intro fuel
  induction fuel with
  | zero => intro n c hc; simp [natDecAux] at hc
  | succ f ih =>
    intro n c hc
    rw [natDecAux] at hc
    by_cases hn : n = 0
    · rw [if_pos hn] at hc
      simp at hc
    · rw [if_neg hn] at hc
      rcases List.mem_append.mp hc with h | h
      · exact ih (n / 10) c h
      · have he := List.mem_singleton.mp h
        subst he
        exact isDigitCh_digitCh _ (Nat.mod_lt n (by omega))

theorem foldl_natDecAux : ∀ (fuel n : Nat), n ≤ fuel → ∀ (A : Nat),
    (natDecAux fuel n).foldl (fun a c => a * 10 + digitVal c) A
      = if n = 0 then A else A * 10 ^ (natDecAux fuel n).length + n := by
  intro fuel
  induction fuel with
  | zero =>
    intro n hn A
    interval_cases n
    simp [natDecAux]
  | succ f ih =>
    intro n hn A
    rw [natDecAux]
    by_cases hn0 : n = 0
    · rw [if_pos hn0, if_pos hn0]
      rfl
    · rw [if_neg hn0, if_neg hn0]
      rw [List.foldl_append]
      have hdiv : n / 10 ≤ f := by
        have := Nat.div_lt_self (by omega : 0 < n) (by omega : 1 < 10)
        omega
      rw [ih (n / 10) hdiv A]
      by_cases hq : n / 10 = 0
      · rw [if_pos hq]
        simp only [List.foldl_cons, List.foldl_nil]
        rw [digitVal_digitCh _ (Nat.mod_lt n (by omega))]
        rw [hq, natDecAux_zero]
        have hlt : n < 10 := by omega
        simp only [List.nil_append, List.length_cons, List.length_nil]
        rw [pow_one]
        omega
      · rw [if_neg hq]
        simp only [List.foldl_cons, List.foldl_nil]
        rw [digitVal_digitCh _ (Nat.mod_lt n (by omega))]
        rw [List.length_append]
        simp only [List.length_cons, List.length_nil]
        rw [Nat.pow_succ, Nat.add_mul, ← Nat.mul_assoc]
        omega

theorem digitsVal_natDec (n : Nat) : digitsVal (natDec n) = n := by
  rw [natDec, digitsVal]
  by_cases hn : n = 0
  · rw [if_pos hn, hn]
    decide
  · rw [if_neg hn]
    rw [foldl_natDecAux (n + 1) n (by omega) 0]
    rw [if_neg hn]
    simp

theorem natDec_all_digits (n : Nat) : ∀ c ∈ natDec n, isDigitCh c = true := by
  rw [natDec]
  by_cases hn : n = 0
  · rw [if_pos hn]
    intro c hc
    have := List.mem_singleton.mp hc
    subst this
    decide
  · rw [if_neg hn]
    exact natDecAux_all_digits (n + 1) n

theorem natDec_ne_nil (n : Nat) : natDec n ≠ [] := by
  rw [natDec]
  by_cases hn : n = 0
  · rw [if_pos hn]
    simp
  · rw [if_neg hn]
    have h1 : 1 ≤ n := by omega
    cases hfn : natDecAux (n + 1) n with
    | cons c cs => simp
    | nil =>
      exfalso
      have := digitsVal_natDec n
      rw [natDec, if_neg hn, hfn] at this
      rw [digitsVal] at this
      simp at this
      omega

theorem digitsVal_cons_zero (l : Str) : digitsVal ('0' :: l) = digitsVal l := by
  rw [digitsVal, digitsVal, List.foldl_cons]
  have : (0 * 10 + digitVal '0') = 0 := by decide
  rw [this]

theorem pad2_spec (n : Nat) :
    digitsVal (pad2 n) = n ∧ (∀ c ∈ pad2 n, isDigitCh c = true) ∧ pad2 n ≠ [] := by
  rw [pad2]
  by_cases h : n < 10
  · rw [if_pos h]
    refine ⟨?_, ?_, by simp⟩
    · rw [digitsVal_cons_zero, digitsVal_natDec]
    · intro c hc
      rcases List.mem_cons.mp hc with rfl | hc2
      · decide
      · exact natDec_all_digits n c hc2
  · rw [if_neg h]
    exact ⟨digitsVal_natDec n, natDec_all_digits n, natDec_ne_nil n⟩

theorem pad4_spec (n : Nat) :
    digitsVal (pad4 n) = n ∧ (∀ c ∈ pad4 n, isDigitCh c = true) ∧ pad4 n ≠ [] := by
  rw [pad4]
  by_cases h1 : n < 10
  · rw [if_pos h1]
    refine ⟨?_, ?_, by simp⟩
    · rw [digitsVal_cons_zero, digitsVal_cons_zero, digitsVal_cons_zero, digitsVal_natDec]
    · intro c hc
      rcases List.mem_cons.mp hc with rfl | hc2
      · decide
      · rcases List.mem_cons.mp hc2 with rfl | hc3
        · decide
        · rcases List.mem_cons.mp hc3 with rfl | hc4
          · decide
          · exact natDec_all_digits n c hc4
  · rw [if_neg h1]
    by_cases h2 : n < 100
    · rw [if_pos h2]
      refine ⟨?_, ?_, by simp⟩
      · rw [digitsVal_cons_zero, digitsVal_cons_zero, digitsVal_natDec]
      · intro c hc
        rcases List.mem_cons.mp hc with rfl | hc2
        · decide
        · rcases List.mem_cons.mp hc2 with rfl | hc3
          · decide
          · exact natDec_all_digits n c hc3
    · rw [if_neg h2]
      by_cases h3 : n < 1000
      · rw [if_pos h3]
        refine ⟨?_, ?_, by simp⟩
        · rw [digitsVal_cons_zero, digitsVal_natDec]
        · intro c hc
          rcases List.mem_cons.mp hc with rfl | hc2
          · decide
          · exact natDec_all_digits n c hc2
      · rw [if_neg h3]
        exact ⟨digitsVal_natDec n, natDec_all_digits n, natDec_ne_nil n⟩

theorem takeWhile_dropWhile_append (p : Char → Bool) : ∀ (l r : Str),
    (∀ c ∈ l, p c = true) → (∀ c, r.head? = some c → p c = false) →
    (l ++ r).takeWhile p = l ∧ (l ++ r).dropWhile p = r := by
  intro l
  induction l with
  | nil =>
    intro r _ hr
    cases r with
    | nil => exact ⟨rfl, rfl⟩
    | cons c cs =>
      have hc := hr c rfl
      constructor
      · rw [List.nil_append, List.takeWhile_cons, hc]
        rfl
      · rw [List.nil_append, List.dropWhile_cons, hc]
        rfl
  | cons x xs ih =>
    intro r hl hr
    have hx := hl x (List.mem_cons_self x xs)
    obtain ⟨h1, h2⟩ := ih r (fun c hc => hl c (List.mem_cons_of_mem x hc)) hr
    constructor
    · rw [List.cons_append, List.takeWhile_cons, hx, h1]
      rfl
    · rw [List.cons_append, List.dropWhile_cons, hx, h2]
      rfl

theorem parseDigits_append (ds rest : Str) (hne : ds ≠ [])
    (hdig : ∀ c ∈ ds, isDigitCh c = true)
    (hrest : ∀ c, rest.head? = some c → isDigitCh c = false) :
    parseDigits (ds ++ rest) = some (digitsVal ds, rest) := by
  obtain ⟨h1, h2⟩ := takeWhile_dropWhile_append isDigitCh ds rest hdig hrest
  rw [parseDigits, h1, h2, if_neg hne]


theorem parseYear_fmtYear (y : Int) (rest : Str)
    (hrest : ∀ c, rest.head? = some c → isDigitCh c = false) :
    parseYear (fmtYear y ++ rest) = some (y, rest) := by
  rw [fmtYear]
  by_cases hy : y < 0
  · rw [if_pos hy]
    rw [List.cons_append]
    rw [parseYear]
    rw [if_pos rfl]
    obtain ⟨hval, hdig, hne⟩ := pad4_spec y.natAbs
    rw [parseDigits_append _ _ hne hdig hrest, hval]
    simp only [Option.map_some']
    have he : -(y.natAbs : Int) = y := by omega
    rw [he]
  · rw [if_neg hy]
    obtain ⟨hval, hdig, hne⟩ := pad4_spec y.toNat
    cases hp : pad4 y.toNat with
    | nil => exact absurd hp hne
    | cons c cs =>
      have hcdig : isDigitCh c = true := by
        apply hdig
        rw [hp]
        exact List.mem_cons_self c cs
      have hcne : ¬ c = '-' := by
        intro he
        subst he
        rw [show isDigitCh '-' = false from rfl] at hcdig
        exact Bool.noConfusion hcdig
      rw [List.cons_append, parseYear, if_neg hcne]
      rw [← List.cons_append, ← hp]
      rw [parseDigits_append _ _ hne hdig hrest, hval]
      simp only [Option.map_some']
      have he : (y.toNat : Int) = y := by omega
      rw [he]

theorem fmtDT_eq (t : NaiveDateTime) :
    fmtDT t = fmtYear t.y ++ ('-' :: (pad2 t.mo ++ ('-' :: (pad2 t.d ++
      ('T' :: (pad2 t.h ++ (':' :: (pad2 t.mi ++ (':' :: pad2 t.s))))))))) := by
  rw [fmtDT]
  simp [List.append_assoc]

theorem head_cons_nonDigit (c : Char) (cs : Str) (hc : isDigitCh c = false) :
    ∀ c2, (c :: cs).head? = some c2 → isDigitCh c2 = false := by
  intro c2 hh
  have h2 : some c = some c2 := hh
  rw [← Option.some.inj h2]
  exact hc

theorem parseDT_fmtDT (t : NaiveDateTime) : parseDT (fmtDT t) = some t := by
  obtain ⟨y, mo, d, hh, mi, ss⟩ := t
  rw [fmtDT_eq]
  obtain ⟨hv2, hd2, hn2⟩ := pad2_spec mo
  obtain ⟨hv3, hd3, hn3⟩ := pad2_spec d
  obtain ⟨hv4, hd4, hn4⟩ := pad2_spec hh
  obtain ⟨hv5, hd5, hn5⟩ := pad2_spec mi
  obtain ⟨hv6, hd6, hn6⟩ := pad2_spec ss
  have h1 := parseYear_fmtYear y
    ('-' :: (pad2 mo ++ ('-' :: (pad2 d ++
      ('T' :: (pad2 hh ++ (':' :: (pad2 mi ++ (':' :: pad2 ss)))))))))
    (head_cons_nonDigit '-' _ (by decide))
  have h2 : expectCh '-'
      ('-' :: (pad2 mo ++ ('-' :: (pad2 d ++
        ('T' :: (pad2 hh ++ (':' :: (pad2 mi ++ (':' :: pad2 ss)))))))))
      = some (pad2 mo ++ ('-' :: (pad2 d ++
        ('T' :: (pad2 hh ++ (':' :: (pad2 mi ++ (':' :: pad2 ss)))))))) := rfl
  have h3 := parseDigits_append (pad2 mo)
    ('-' :: (pad2 d ++ ('T' :: (pad2 hh ++ (':' :: (pad2 mi ++ (':' :: pad2 ss)))))))
    hn2 hd2 (head_cons_nonDigit '-' _ (by decide))
  have h4 : expectCh '-'
      ('-' :: (pad2 d ++ ('T' :: (pad2 hh ++ (':' :: (pad2 mi ++ (':' :: pad2 ss)))))))
      = some (pad2 d ++ ('T' :: (pad2 hh ++ (':' :: (pad2 mi ++ (':' :: pad2 ss)))))) := rfl
  have h5 := parseDigits_append (pad2 d)
    ('T' :: (pad2 hh ++ (':' :: (pad2 mi ++ (':' :: pad2 ss)))))
    hn3 hd3 (head_cons_nonDigit 'T' _ (by decide))
  have h6 : expectCh 'T' ('T' :: (pad2 hh ++ (':' :: (pad2 mi ++ (':' :: pad2 ss)))))
      = some (pad2 hh ++ (':' :: (pad2 mi ++ (':' :: pad2 ss)))) := rfl
  have h7 := parseDigits_append (pad2 hh) (':' :: (pad2 mi ++ (':' :: pad2 ss)))
    hn4 hd4 (head_cons_nonDigit ':' _ (by decide))
  have h8 : expectCh ':' (':' :: (pad2 mi ++ (':' :: pad2 ss)))
      = some (pad2 mi ++ (':' :: pad2 ss)) := rfl
  have h9 := parseDigits_append (pad2 mi) (':' :: pad2 ss)
    hn5 hd5 (head_cons_nonDigit ':' _ (by decide))
  have h10 : expectCh ':' (':' :: pad2 ss) = some (pad2 ss) := rfl
  have h11 := parseDigits_append (pad2 ss) [] hn6 hd6 (by intro c hc; simp at hc)
  rw [List.append_nil] at h11
  simp only [parseDT, Option.bind_eq_bind, h1, h2, h3, hv2, h4, h5, hv3, h6, h7, hv4,
    h8, h9, hv5, h10, h11, hv6, Option.some_bind]
  simp

theorem mapM_jsonToStr (l : List Str) :
    (l.map (fun u => Json.jstr u)).mapM jsonToStr = some l := by
  induction l with
  | nil => rfl
  | cons x xs ih =>
    rw [List.map_cons, List.mapM_cons]
    simp only [jsonToStr, ih, Option.bind_eq_bind, Option.some_bind]
    rfl

theorem deserializeMeta_serializeMeta (e : ProjectMetadata) :
    deserializeMeta (serializeMeta e) = some e := by
  obtain ⟨p, ups, lc⟩ := e
  cases lc with
  | none =>
    show deserializeMeta (Json.jobj
      [(str "path", Json.jstr p),
       (str "upstream", Json.jarr (ups.map (fun u => Json.jstr u))),
       (str "latest_commit", Json.null)]) = some ⟨p, ups, none⟩
    rw [deserializeMeta]
    rw [if_pos ⟨rfl, rfl, rfl⟩]
    rw [mapM_jsonToStr]
  | some t =>
    show deserializeMeta (Json.jobj
      [(str "path", Json.jstr p),
       (str "upstream", Json.jarr (ups.map (fun u => Json.jstr u))),
       (str "latest_commit", Json.jstr (fmtDT t))]) = some ⟨p, ups, some t⟩
    rw [deserializeMeta]
    rw [if_pos ⟨rfl, rfl, rfl⟩]
    rw [mapM_jsonToStr]
    show Option.map (fun t2 => ProjectMetadata.mk p ups (some t2)) (parseDT (fmtDT t))
      = some ⟨p, ups, some t⟩
    rw [parseDT_fmtDT]
    rfl

/-- C6: cache persistence round-trips. Serializing any cache list to the
on-disk JSON format and deserializing the result reproduces an identical
list of records — same paths, same remote lists, same (possibly absent)
timestamps, in the same order. -/
theorem cache_roundtrip : ∀ (c : Cache), deserializeCache (serializeCache c) = some c := by
  intro c
  show (c.map serializeMeta).mapM deserializeMeta = some c
  induction c with
  | nil => rfl
  | cons e es ih =>
    rw [List.map_cons, List.mapM_cons]
    simp only [deserializeMeta_serializeMeta, ih, Option.bind_eq_bind, Option.some_bind]
    rfl

/-! ## C8: recursion and recognition behavior of `scan` -/

mutual

theorem entryTrace_event_length (path q : List Str) (e : FsEntry) :
    (ScanEvent.record q ∈ entryTrace path e → path.length ≤ q.length) ∧
    (ScanEvent.enter q ∈ entryTrace path e → path.length < q.length) := by
  cases e with
  | file nm =>
    constructor
    · intro hm
      rw [entryTrace] at hm
      exact absurd hm (List.not_mem_nil _)
    · intro hm
      rw [entryTrace] at hm
      exact absurd hm (List.not_mem_nil _)
  | dir n sub =>
    by_cases hn : n = str ".git"
    · constructor
      · intro hm
        rw [entryTrace, if_pos hn] at hm
        have he := List.mem_singleton.mp hm
        have hq : q = path := by
          cases he
          rfl
        rw [hq]
      · intro hm
        rw [entryTrace, if_pos hn] at hm
        have he := List.mem_singleton.mp hm
        exact ScanEvent.noConfusion he
    · constructor
      · intro hm
        rw [entryTrace, if_neg hn] at hm
        rcases List.mem_cons.mp hm with he | hm2
        · exact ScanEvent.noConfusion he
        · have h1 := (scanTrace_event_length (path ++ [n]) q sub).1 hm2
          simp only [List.length_append, List.length_cons, List.length_nil] at h1
          omega
      · intro hm
        rw [entryTrace, if_neg hn] at hm
        rcases List.mem_cons.mp hm with he | hm2
        · have hq : q = path ++ [n] := by
            cases he
            rfl
          rw [hq]
          simp
        · have h1 := (scanTrace_event_length (path ++ [n]) q sub).2 hm2
          simp only [List.length_append, List.length_cons, List.length_nil] at h1
          omega

theorem scanTrace_event_length (path q : List Str) (entries : List FsEntry) :
    (ScanEvent.record q ∈ scanTrace path entries → path.length ≤ q.length) ∧
    (ScanEvent.enter q ∈ scanTrace path entries → path.length < q.length) := by
  cases entries with
  | nil =>
    constructor
    · intro hm
      rw [scanTrace] at hm
      exact absurd hm (List.not_mem_nil _)
    · intro hm
      rw [scanTrace] at hm
      exact absurd hm (List.not_mem_nil _)
  | cons e es =>
    constructor
    · intro hm
      rw [scanTrace] at hm
      rcases List.mem_append.mp hm with h | h
      · exact (entryTrace_event_length path q e).1 h
      · exact (scanTrace_event_length path q es).1 h
    · intro hm
      rw [scanTrace] at hm
      rcases List.mem_append.mp hm with h | h
      · exact (entryTrace_event_length path q e).2 h
      · exact (scanTrace_event_length path q es).2 h

end

theorem scanTrace_record_iff (path : List Str) : ∀ (entries : List FsEntry),
    ScanEvent.record path ∈ scanTrace path entries
      ↔ ∃ sub, FsEntry.dir (str ".git") sub ∈ entries := by
  intro entries
  induction entries with
  | nil =>
    rw [scanTrace]
    simp
  | cons e es ih =>
    rw [scanTrace]
    constructor
    · intro hm
      rcases List.mem_append.mp hm with h | h
      · cases e with
        | file nm =>
          rw [entryTrace] at h
          exact absurd h (List.not_mem_nil _)
        | dir n sub =>
          by_cases hn : n = str ".git"
          · subst hn
            exact ⟨sub, List.mem_cons_self _ _⟩
          · rw [entryTrace, if_neg hn] at h
            rcases List.mem_cons.mp h with he | hm2
            · exact ScanEvent.noConfusion he
            · have h1 := (scanTrace_event_length (path ++ [n]) path sub).1 hm2
              simp only [List.length_append, List.length_cons, List.length_nil] at h1
              omega
      · obtain ⟨sub, hsub⟩ := ih.mp h
        exact ⟨sub, List.mem_cons_of_mem e hsub⟩
    · intro hex
      obtain ⟨sub, hsub⟩ := hex
      rcases List.mem_cons.mp hsub with rfl | hsub2
      · apply List.mem_append.mpr
        left
        rw [entryTrace, if_pos rfl]
        exact List.mem_singleton.mpr rfl
      · apply List.mem_append.mpr
        right
        exact ih.mpr ⟨sub, hsub2⟩

theorem scanTrace_enter_iff (path : List Str) (n : Str) : ∀ (entries : List FsEntry),
    ScanEvent.enter (path ++ [n]) ∈ scanTrace path entries
      ↔ (¬ n = str ".git" ∧ ∃ sub, FsEntry.dir n sub ∈ entries) := by
  intro entries
  induction entries with
  | nil =>
    rw [scanTrace]
    simp
  | cons e es ih =>
    rw [scanTrace]
    constructor
    · intro hm
      rcases List.mem_append.mp hm with h | h
      · cases e with
        | file nm =>
          rw [entryTrace] at h
          exact absurd h (List.not_mem_nil _)
        | dir m sub =>
          by_cases hm2 : m = str ".git"
          · rw [entryTrace, if_pos hm2] at h
            exact absurd (List.mem_singleton.mp h) (by intro he; exact ScanEvent.noConfusion he)
          · rw [entryTrace, if_neg hm2] at h
            rcases List.mem_cons.mp h with he | h3
            · have hpq : path ++ [n] = path ++ [m] := ScanEvent.enter.inj he
              have hnm : n = m := by
                have := List.append_cancel_left hpq
                exact (List.cons.injEq _ _ _ _ ▸ this).1
              subst hnm
              exact ⟨hm2, sub, List.mem_cons_self _ _⟩
            · have h1 := (scanTrace_event_length (path ++ [m]) (path ++ [n]) sub).2 h3
              simp only [List.length_append, List.length_cons, List.length_nil] at h1
              omega
      · obtain ⟨hne, sub, hsub⟩ := ih.mp h
        exact ⟨hne, sub, List.mem_cons_of_mem e hsub⟩
    · intro hex
      obtain ⟨hne, sub, hsub⟩ := hex
      rcases List.mem_cons.mp hsub with rfl | hsub2
      · apply List.mem_append.mpr
        left
        rw [entryTrace, if_neg hne]
        exact List.mem_cons_self _ _
      · apply List.mem_append.mpr
        right
        exact ih.mpr ⟨hne, sub, hsub2⟩

/-- C8 counterexample: identification as a repository does not terminate
traversal of the branch. For the tree `d/{.git, sub/{.git}}`, the
scanner records `d` as a repository and STILL recurses into `d/sub`
(recording the nested repository too): the trace contains both the
`record d` event and the `enter d/sub` event. -/
theorem scan_counterexample :
    scanTrace [str "d"]
        [FsEntry.dir (str ".git") [],
         FsEntry.dir (str "sub") [FsEntry.dir (str ".git") []]]
      = [ScanEvent.record [str "d"], ScanEvent.enter [str "d", str "sub"],
         ScanEvent.record [str "d", str "sub"]] ∧
    ScanEvent.record [str "d"] ∈ scanTrace [str "d"]
        [FsEntry.dir (str ".git") [],
         FsEntry.dir (str "sub") [FsEntry.dir (str ".git") []]] ∧
    ScanEvent.enter [str "d", str "sub"] ∈ scanTrace [str "d"]
        [FsEntry.dir (str ".git") [],
         FsEntry.dir (str "sub") [FsEntry.dir (str ".git") []]] :=
  ⟨by decide, by decide, by decide⟩

/-- C8 (amended): during the depth-first scan, a directory is recorded
as a repository exactly when it directly contains an entry named `.git`
that is itself a directory; and traversal recurses into exactly the
child directories not named `.git` — the scanner skips descending into
`.git` itself but, contrary to the claim, identification as a repository
does not terminate the branch: all other subdirectories are still
recursed into (see the counterexample). -/
theorem scan_recursion_behavior (path : List Str) (n : Str) (entries : List FsEntry) :
    (ScanEvent.record path ∈ scanTrace path entries
      ↔ ∃ sub, FsEntry.dir (str ".git") sub ∈ entries) ∧
    (ScanEvent.enter (path ++ [n]) ∈ scanTrace path entries
      ↔ (¬ n = str ".git" ∧ ∃ sub, FsEntry.dir n sub ∈ entries)) :=
  ⟨scanTrace_record_iff path entries, scanTrace_enter_iff path n entries⟩

/-! ## C9, C10, C1: load policy, the recent-entries printer, and the days filter -/

/-- C9: when a scan starts, a missing cache file (`disk = none`) or an
unparsable one (`deserializeCache j = none`) yields the empty starting
cache (`build_cache` with nothing scanned returns `[]` rather than an
error), whereas the `show` and `clone` commands propagate the
`Cache file not found` error when the cache file is absent instead of
proceeding with an empty cache. -/
theorem cache_load_policy (j : Json) (hj : deserializeCache j = none)
    (args : List Str) (daysOpt : Option Nat) (full : Bool)
    (elapsedOf : NaiveDateTime → Int) :
    build_cache none [] = [] ∧
    build_cache (some j) [] = [] ∧
    mainShow none daysOpt full elapsedOf = Except.error LoadErr.notFound ∧
    mainClone none args = Except.error LoadErr.notFound := by
  refine ⟨rfl, ?_, rfl, rfl⟩
  simp [build_cache, get_cache_from_disk, hj, sortCache]

/-- Witness for C9 at the unparsable JSON value `0`. -/
theorem cache_load_policy_witness :
    build_cache none [] = [] ∧
    build_cache (some (Json.jnum 0)) [] = [] ∧
    mainShow none (some 7) false (fun _ => 0) = Except.error LoadErr.notFound ∧
    mainClone none [str "x"] = Except.error LoadErr.notFound :=
  cache_load_policy (Json.jnum 0) (by rfl) [str "x"] (some 7) false (fun _ => 0)

/-- C10: the recent-entries printer never prints a record whose
`last_commit` is absent — its output over any cache equals its output
over the cache with all absent-timestamp records removed, for every
`since` filter, location and clock. Both the post-scan listing
(`mainScan`) and `show` without `--full` (`mainShow`) print through
`print_recent`. -/
theorem recentPred_none (since : Option Int) (location : Str)
    (elapsedOf : NaiveDateTime → Int) (e : ProjectMetadata)
    (he : e.latest_commit = none) : recentPred since location elapsedOf e = false := by
  rw [recentPred, he]

theorem print_recent_absent_omitted : ∀ (data : Cache) (since : Option Int)
    (location : Str) (elapsedOf : NaiveDateTime → Int),
    print_recent data since location elapsedOf
      = print_recent (data.filter (fun e => e.latest_commit.isSome))
          since location elapsedOf := by
  intro data since location elapsedOf
  induction data with
  | nil => rfl
  | cons e es ih =>
    simp only [print_recent] at ih ⊢
    cases he : e.latest_commit with
    | none =>
      rw [List.filter_cons_of_neg (by simp [recentPred_none since location elapsedOf e he])]
      rw [List.filter_cons_of_neg (by simp [he])]
      exact ih
    | some dt =>
      conv_rhs => rw [List.filter_cons_of_pos (by simp [he])]
      by_cases hp : recentPred since location elapsedOf e = true
      · rw [List.filter_cons_of_pos hp, List.filter_cons_of_pos hp]
        simp only [List.map_cons]
        rw [ih]
      · rw [List.filter_cons_of_neg hp, List.filter_cons_of_neg hp]
        exact ih

/-- C1 (code-bug evidence): the `--days-to-show` option is parsed but
has no effect. `main` computes `days` from the option (lines 355-358)
and then hard-codes `days_to_show = None` (line 360; the line that would
build `Duration::days(days)` is commented out at line 359). With
`--days-to-show 1`, a record whose last commit lies 8 640 000 seconds
(100 days) in the past — far outside `Duration::days(1) = 86 400`
seconds — is still printed both by `show` and by the post-scan listing,
where the claim requires exactly the records within the last day. -/
theorem days_filter_dead_code :
    effectiveSince (some 1) = none ∧
    daysToSecs 1 = 86400 ∧
    mainShow (some (serializeCache [⟨str "/old/repo", [], some ⟨2020, 1, 1, 0, 0, 0⟩⟩]))
        (some 1) false (fun _ => 8640000)
      = Except.ok (ShowOut.recent [str "/old/repo"]) ∧
    (mainScan none [⟨str "/old/repo", [], some ⟨2020, 1, 1, 0, 0, 0⟩⟩] (some 1) (str "/")
        (fun _ => 8640000)).2 = [str "/old/repo"] ∧
    ¬ (8640000 : Int) ≤ 86400 :=
  ⟨rfl, rfl, by rfl, by decide, by decide⟩

/-- The repository's own unit test (lines 401-408): both test vectors
canonicalize as asserted there. -/
theorem get_url_ending_repo_test_vectors :
    get_url_ending (str "https://github.com/linebender/runebender (fetch)")
      = some (str "linebender/runebender") ∧
    get_url_ending (str "git@github.com:gbrls/Bootloader.git (fetch)")
      = some (str "gbrls/Bootloader") :=
  ⟨by decide, by decide⟩
